import Mathlib

/-!
Verification development for the gitweb repository's static-analysis core
(`src/lib/analyzer.ts`, given as `src/unnamed/part_004`, and `src/lib/llm.ts`).

The TypeScript pipeline is shallowly embedded: pure helper functions become
Lean functions, the JavaScript `Map` objects become insertion-ordered
association lists with `Map.set`/`Map.get` semantics, and the Babel AST
traversal of `analyzeFile` is modelled over a miniature statement AST that
covers exactly the syntactic forms the claims speak about (import
declarations, named function declarations, and identifier call expressions
at top level or inside a function body).  Wall-clock fields of the output
(`durationMs`, `generatedAt`) are omitted from the embedding.  Repository
acquisition (git clone, globbing) is outside the analysis core: the model's
entry point consumes the list of repository-relative file paths, matching
the spec's `analyze(files, aliasTable, options)` interface.
-/

namespace GitWeb

/-! ## POSIX path helpers (model of Node's `path.posix` as used by the analyzer)

String operations are implemented over the character list by structural
recursion so that every definition evaluates inside the kernel (concrete
claim instances are settled by `decide`). -/

/-- Splitting at `/` (the behaviour of `String.splitOn "/"`). -/
def splitOnSlash : List Char → List (List Char)
  | [] => [[]]
  | c :: rest =>
    if c = '/' then [] :: splitOnSlash rest
    else
      match splitOnSlash rest with
      | [] => [[c]]
      | g :: gs => (c :: g) :: gs

/-- Joining with a separator (the behaviour of `String.intercalate`). -/
def joinSep (sep : String) : List String → String
  | [] => ""
  | [s] => s
  | s :: rest => s ++ sep ++ joinSep sep rest

/-- Prefix test on strings. -/
def strStartsWith (s pat : String) : Bool :=
  pat.data.isPrefixOf s.data

/-- Suffix test on strings. -/
def strEndsWith (s pat : String) : Bool :=
  pat.data.reverse.isPrefixOf s.data.reverse

/-- Model of `String.prototype.replace(/\\/g, '/')` used at the top of
`tryCandidates`. -/
def backslashToSlash (s : String) : String :=
  ⟨s.data.map (fun c => if c = '\\' then '/' else c)⟩

/-- Segment processing of Node's `path.posix.normalize`: empty and `.`
segments are dropped, `..` pops the previous segment; for relative paths
(`allowAbove = true`) leading `..` segments are kept. -/
def normSegs (allowAbove : Bool) : List String → List String → List String
  | acc, [] => acc.reverse
  | acc, seg :: rest =>
    if seg = "" || seg = "." then normSegs allowAbove acc rest
    else if seg = ".." then
      match acc with
      | [] => normSegs allowAbove (if allowAbove then [".."] else []) rest
      | top :: tl =>
        if top = ".." && allowAbove then normSegs allowAbove (".." :: acc) rest
        else normSegs allowAbove tl rest
    else normSegs allowAbove (seg :: acc) rest

/-- Model of Node's `path.posix.normalize`. -/
def posixNormalize (p : String) : String :=
  if p = "" then "." else
  let isAbs := strStartsWith p "/"
  let trailing := strEndsWith p "/"
  let core := joinSep "/" (normSegs (!isAbs) [] ((splitOnSlash p.data).map (fun g => (⟨g⟩ : String))))
  if core = "" then
    if isAbs then "/" else if trailing then "./" else "."
  else
    let core := if trailing then core ++ "/" else core
    if isAbs then "/" ++ core else core

/-- Model of the two-argument posix path join: non-empty parts are joined
with `/` and the result normalized; with nothing to join the result is `.`. -/
def posixJoin (a b : String) : String :=
  match [a, b].filter (· ≠ "") with
  | [] => "."
  | parts => posixNormalize (joinSep "/" parts)

/-- Scan of Node's `path.posix.dirname`: walking from the end of the string
(original index attached, index 0 excluded), skip trailing slashes, then
return the index of the slash that terminates the directory part. -/
def dirnameEnd : List Char → Nat → Bool → Option Nat
  | _, 0, _ => none
  | [], _, _ => none
  | c :: rest, i + 1, matchedSlash =>
    if c = '/' then
      if matchedSlash then dirnameEnd rest i true else some (i + 1)
    else dirnameEnd rest i false

/-- Model of Node's `path.posix.dirname`. -/
def posixDirname (p : String) : String :=
  let cs := p.data
  if cs.isEmpty then "." else
  let hasRoot := cs.head? = some '/'
  match dirnameEnd cs.reverse (cs.length - 1) true with
  | none => if hasRoot then "/" else "."
  | some e => if hasRoot && e = 1 then "//" else ⟨cs.take e⟩

/-- Model of Node's `path.posix.basename` (no suffix argument). -/
def posixBasename (p : String) : String :=
  match ((splitOnSlash p.data).map (fun g => (⟨g⟩ : String))).reverse.dropWhile (· = "") with
  | [] => ""
  | s :: _ => s

/-- Index of the last `.` in a character list, if any. -/
def lastDotIdx : List Char → Nat → Option Nat → Option Nat
  | [], _, acc => acc
  | c :: rest, i, acc => lastDotIdx rest (i + 1) (if c = '.' then some i else acc)

/-- Model of Node's `path.posix.extname` restricted to ordinary file names:
the extension is the last basename segment from its final dot, with a dot
that starts the basename (a dotfile) yielding no extension. -/
def posixExtname (p : String) : String :=
  let cs := (posixBasename p).data
  match lastDotIdx cs 0 none with
  | none => ""
  | some 0 => ""
  | some i => ⟨cs.drop i⟩

/-- Model of `String.prototype.toLowerCase` for the ASCII strings the
analyzer compares. -/
def jsToLowerCase (s : String) : String :=
  ⟨s.data.map Char.toLower⟩

/-! ## Analyzer constants (`src/lib/analyzer.ts` lines 19–21) -/

def SUPPORTED_EXTENSIONS : List String := [".ts", ".tsx", ".js", ".jsx", ".mjs", ".cjs"]

def IMPORT_EXTENSIONS : List String := [".ts", ".tsx", ".js", ".jsx", ".mjs", ".cjs", ".json"]

def INDEX_FILES : List String := IMPORT_EXTENSIONS.map (fun ext => "/index" ++ ext)

/-! ## Module resolver (`createModuleResolver`, lines 811–874)

The memoization cache `candidateCache` is omitted: `tryCandidates` is a pure
function of the immutable file set, so the cache is observationally
transparent. -/

/-- Candidate list probed by `tryCandidates`: the base path literally, then
the base with each import extension appended, then the base with each index
file appended. -/
def candidatesOf (normBase : String) : List String :=
  normBase :: ((IMPORT_EXTENSIONS.map (fun ext => normBase ++ ext))
    ++ (INDEX_FILES.map (fun idx => normBase ++ idx)))

/-- Model of `tryCandidates`: return the first candidate present in the
known-file set. -/
def tryCandidates (fileSet : List String) (base : String) : Option String :=
  (candidatesOf (backslashToSlash base)).find? (fun c => fileSet.contains c)

/-- Parsed `tsconfig.json` path-mapping entry (`TsconfigPathsEntry`). -/
structure TsconfigPathsEntry where
  pfx : String
  sfx : String
  targets : List String
  deriving DecidableEq, Repr

/-- Model of `String.prototype.slice` with a `Nat` start index and an `Int`
end index (negative end counts from the end of the string, as in JS). -/
def jsSlice (l : List Char) (start : Nat) (stop : Int) : List Char :=
  let len : Int := l.length
  let e : Int := if stop < 0 then max (len + stop) 0 else min stop len
  (l.take e.toNat).drop start

/-- Remainder computation of the alias branch:
`specifier.slice(entry.prefix.length, entry.prefix.length === specifier.length
? undefined : specifier.length - entry.suffix.length)`. -/
def aliasRemainder (e : TsconfigPathsEntry) (specifier : String) : String :=
  if e.pfx.length = specifier.length then ⟨specifier.data.drop e.pfx.length⟩
  else ⟨jsSlice specifier.data e.pfx.length ((specifier.length : Int) - e.sfx.length)⟩

/-- Inner loop over an alias entry's targets. -/
def resolveAliasTargets (fileSet : List String) (remainder : String) :
    List String → Option String
  | [] => none
  | t :: rest =>
    match tryCandidates fileSet (posixNormalize (posixJoin t remainder)) with
    | some r => some r
    | none => resolveAliasTargets fileSet remainder rest

/-- Loop over the configured alias entries. -/
def resolveAlias (fileSet : List String) (specifier : String) :
    List TsconfigPathsEntry → Option String
  | [] => none
  | e :: rest =>
    if strStartsWith specifier e.pfx then
      match resolveAliasTargets fileSet (aliasRemainder e specifier) e.targets with
      | some r => some r
      | none => resolveAlias fileSet specifier rest
    else resolveAlias fileSet specifier rest

/-- Model of the resolver closure returned by `createModuleResolver`. -/
def resolveSpecifier (fileSet : List String) (paths : List TsconfigPathsEntry)
    (fromPath specifier : String) : Option String :=
  if specifier = "" then none
  else
    let fromDir := posixDirname fromPath
    if strStartsWith specifier "." then
      tryCandidates fileSet (posixNormalize (posixJoin fromDir specifier))
    else
      match resolveAlias fileSet specifier paths with
      | some r => some r
      | none =>
        match tryCandidates fileSet (posixJoin "." specifier) with
        | some r => some r
        | none => tryCandidates fileSet (posixJoin "src" specifier)

/-! ## Generic insertion-ordered map (model of the JavaScript `Map` objects)

`Map.get` returns the value most recently `set` for a key; `Map.set` on an
existing key updates the entry in place (keeping its position), otherwise it
appends.  Keys built from the empty map are therefore free of duplicates. -/

/-- Model of `Map.prototype.get`. -/
def mapGet (m : List (String × α)) (k : String) : Option α :=
  (m.find? (fun p => p.1 == k)).map (·.2)

/-- Model of `Map.prototype.set`. -/
def mapSet (m : List (String × α)) (k : String) (v : α) : List (String × α) :=
  if (m.find? (fun p => p.1 == k)).isSome then
    m.map (fun p => if p.1 == k then (k, v) else p)
  else m ++ [(k, v)]

/-- Insertion into a JavaScript `Set` (insertion-ordered, deduplicated). -/
def insertUnique (l : List String) (x : String) : List String :=
  if l.contains x then l else l ++ [x]

/-- Model of JavaScript string truthiness for an optional string field:
`undefined` and the empty string are falsy. -/
def jsTruthyStr : Option String → Bool
  | none => false
  | some s => s ≠ ""

/-- Substring test, model of `String.prototype.includes`. -/
def strIncludesAux (pat : List Char) : List Char → Bool
  | [] => pat.isEmpty
  | c :: tl => pat.isPrefixOf (c :: tl) || strIncludesAux pat tl

/-- Model of `String.prototype.includes`. -/
def strIncludes (s pat : String) : Bool :=
  strIncludesAux pat.data s.data

/-! ## Data model of the analyzer (`src/lib/analyzer.ts` lines 25–103)

The `preview`/`size` fields of `FileAnalysis` and the `loc` spans are
omitted: they feed only the LLM request payload, which the embedding treats
as external (the LLM's reply is a parameter of the pipeline). -/

/-- Binding type of an import specifier. -/
inductive BindingType
  | named
  | defaultB
  | namespaceB
  deriving DecidableEq, Repr

/-- Model of `ImportSpecifierBinding` (`local` and `type` are Lean keywords,
rendered `localName` and `btype`). -/
structure ImportSpecifierB where
  localName : String
  imported : String
  btype : BindingType
  resolved : Option String := none
  deriving DecidableEq, Repr

/-- Model of `ImportBinding`; the `kind` field is constantly `'es'` for the
statement forms the mini-AST covers and is omitted. -/
structure ImportBinding where
  source : String
  resolved : Option String := none
  specifiers : List ImportSpecifierB
  deriving DecidableEq, Repr

/-- Function kinds of `FunctionInfo.kind`. -/
inductive FunctionKind
  | function
  | arrow
  | method
  | classDecl
  | anonymous
  deriving DecidableEq, Repr

/-- Model of `FunctionInfo`; `incl` renders the source's `include` field
(`include` is a Lean keyword). -/
structure FunctionInfo where
  id : String
  name : String
  filePath : String
  kind : FunctionKind
  exportName : Option String := none
  isExported : Bool
  incl : Bool
  deriving DecidableEq, Repr

/-- Model of `CallBinding`. -/
structure CallBinding where
  localName : String
  imported : String
  source : String
  callerId : String
  resolved : Option String := none
  deriving DecidableEq, Repr

/-- Model of `FileAnalysis` (without `preview`/`size`, see above). -/
structure FileAnalysis where
  path : String
  imports : List ImportBinding
  functions : List FunctionInfo
  calls : List CallBinding
  deriving DecidableEq, Repr

/-! ## Mini-AST and the `analyzeFile` traversal (lines 270–575)

The mini-AST covers the statement forms the claims are about: ES import
declarations, (optionally export-wrapped) named function declarations whose
bodies contain identifier-callee call expressions, and identifier-callee
call expressions at module top level.  Statements are processed in source
order, exactly as Babel's single traversal visits them; a call expression
inside a function body is visited after its enclosing declaration. -/

/-- Import specifier syntax. -/
inductive SpecAst
  | named (localName imported : String)
  | defaultSpec (localName : String)
  | namespaceSpec (localName : String)
  deriving DecidableEq, Repr

/-- Top-level statement of the mini-AST. -/
inductive Stmt
  | importDecl (source : String) (specs : List SpecAst)
  | funDecl (name : String) (exported : Bool) (bodyCalls : List String)
  | topCall (callee : String)
  deriving DecidableEq, Repr

/-- The `ImportDeclaration` visitor's specifier records (lines 344–373). -/
def specAstToRecord : SpecAst → ImportSpecifierB
  | .named l i => { localName := l, imported := i, btype := .named }
  | .defaultSpec l => { localName := l, imported := "default", btype := .defaultB }
  | .namespaceSpec l => { localName := l, imported := "*", btype := .namespaceB }

/-- Names bound by (hoisted) function declarations of the file. -/
def declaredFunNames (stmts : List Stmt) : List String :=
  stmts.filterMap (fun s => match s with
    | .funDecl n _ _ => some n
    | _ => none)

/-- Local names bound by the file's import declarations. -/
def importLocals (stmts : List Stmt) : List String :=
  (stmts.map (fun s => match s with
    | .importDecl _ specs => specs.map (fun sp => (specAstToRecord sp).localName)
    | _ => [])).flatten

/-- Model of `path.scope.getBinding(name)?.kind === 'module'` for the
mini-AST: a hoisted function declaration of the same name shadows, otherwise
the name has a module binding exactly when some import declaration binds
it. -/
def hasModuleBinding (stmts : List Stmt) (name : String) : Bool :=
  !(declaredFunNames stmts).contains name && (importLocals stmts).contains name

/-- Mutable state of one `analyzeFile` traversal.  `specLookup` models
`importSpecifierLookup` (value paired with the import declaration's source,
which the `CallExpression` visitor reads off the binding's parent);
`moduleInvokerIdx` points at the module pseudo-record in `functions`. -/
structure TravState where
  imports : List ImportBinding
  specLookup : List (String × (ImportSpecifierB × String))
  functions : List FunctionInfo
  calls : List CallBinding
  moduleInvokerIdx : Option Nat
  deriving DecidableEq, Repr

/-- Initial traversal state. -/
def TravState.init : TravState :=
  { imports := [], specLookup := [], functions := [], calls := [], moduleInvokerIdx := none }

/-- The guard chain of the `CallExpression` visitor (lines 380–397): the
callee must have a `module`-kind binding, appear in the specifier lookup,
and not be a namespace import; on success the specifier record and the
source of the binding import declaration are returned. -/
def recordedSpec (stmts : List Stmt) (st : TravState) (c : String) :
    Option (ImportSpecifierB × String) :=
  if hasModuleBinding stmts c then
    match mapGet st.specLookup c with
    | some (sp, src) => if sp.btype = .namespaceB then none else some (sp, src)
    | none => none
  else none

/-- Model of `ensureModuleInvoker` (lines 296–309): create the module
pseudo-record (with `include = true`) on first use, returning the caller
id. -/
def ensureModuleInvoker (relPath : String) (st : TravState) : TravState × String :=
  match st.moduleInvokerIdx with
  | some i => (st, (((st.functions.get? i).map (·.id)).getD (relPath ++ "::(module)")))
  | none =>
    let info : FunctionInfo :=
      { id := relPath ++ "::(module)", name := "(module)", filePath := relPath,
        kind := .anonymous, isExported := false, incl := true }
    ({ st with
        functions := st.functions ++ [info],
        moduleInvokerIdx := some st.functions.length }, info.id)

/-- Set `include := true` on the function record at an index. -/
def setInclAt (fns : List FunctionInfo) (i : Nat) : List FunctionInfo :=
  match fns.get? i with
  | some fn => fns.set i { fn with incl := true }
  | none => fns

/-- A call expression inside the body of the function registered at index
`idx`: the caller's `include` is forced `true` (line 413) and a
`CallBinding` is recorded. -/
def processBodyCall (stmts : List Stmt) (idx : Nat) (st : TravState) (c : String) : TravState :=
  match recordedSpec stmts st c with
  | none => st
  | some (sp, src) =>
    let callerId := (((st.functions.get? idx).map (·.id)).getD "")
    { st with
      functions := setInclAt st.functions idx,
      calls := st.calls ++ [{ localName := sp.localName, imported := sp.imported,
                              source := src, callerId := callerId }] }

/-- A call expression at module top level: the module pseudo-record is
materialized as the caller (lines 415–417). -/
def processTopCall (stmts : List Stmt) (relPath : String) (st : TravState) (c : String) :
    TravState :=
  match recordedSpec stmts st c with
  | none => st
  | some (sp, src) =>
    let (st, callerId) := ensureModuleInvoker relPath st
    { st with
      calls := st.calls ++ [{ localName := sp.localName, imported := sp.imported,
                              source := src, callerId := callerId }] }

/-- The record registered for a named function declaration (its
`exportName` is set by `markExport` when the declaration is export-wrapped). -/
def funDeclInfo (relPath name : String) (e : Bool) : FunctionInfo :=
  { id := relPath ++ "::" ++ name, name := name, filePath := relPath, kind := .function,
    exportName := if e then some name else none, isExported := e, incl := e }

/-- Registration of a function declaration: for an export-wrapped
declaration both the `ExportNamedDeclaration` visitor (lines 490–505) and
the `FunctionDeclaration` visitor (lines 425–439) fire, each pushing a
record with identical fields, exactly as in the source. -/
def registeredFuns (relPath name : String) (e : Bool) (fns : List FunctionInfo) :
    List FunctionInfo :=
  if e then fns ++ [funDeclInfo relPath name e, funDeclInfo relPath name e]
  else fns ++ [funDeclInfo relPath name e]

/-- Processing of one top-level statement in traversal order; body calls of
a function declaration are attributed to the record registered last, which
`functionNodeLookup` points at. -/
def processStmt (stmts : List Stmt) (relPath : String) (st : TravState) : Stmt → TravState
  | .importDecl src specs =>
    { st with
      specLookup := (specs.map specAstToRecord).foldl
        (fun lk r => mapSet lk r.localName (r, src)) st.specLookup,
      imports := st.imports ++ [{ source := src, specifiers := specs.map specAstToRecord }] }
  | .funDecl name e bodyCalls =>
    bodyCalls.foldl
      (processBodyCall stmts ((registeredFuns relPath name e st.functions).length - 1))
      { st with functions := registeredFuns relPath name e st.functions }
  | .topCall c => processTopCall stmts relPath st c

/-- Model of `analyzeFile` (minus file IO and the preview). -/
def analyzeFile (relPath : String) (stmts : List Stmt) : FileAnalysis :=
  let st := stmts.foldl (processStmt stmts relPath) TravState.init
  { path := relPath, imports := st.imports, functions := st.functions, calls := st.calls }

/-! ## Edge records and the analysis context (lines 70–97) -/

/-- Edge kinds of `FileEdge.kind` / `FunctionEdge.kind` (`src/lib/types.ts`). -/
inductive EdgeKind
  | imports
  | reexports
  | invokes
  | llmReference
  deriving DecidableEq, Repr

/-- Edge provenance (`sourceType`). -/
inductive SourceType
  | static
  | llm
  deriving DecidableEq, Repr

/-- Qualitative LLM confidence (`RelationshipConfidence`). -/
inductive Confidence
  | low
  | medium
  | high
  deriving DecidableEq, Repr

/-- Model of `FileEdgeRecord` / `FunctionEdgeRecord` (identical shapes). -/
structure EdgeRecord where
  source : String
  target : String
  kind : EdgeKind
  sourceType : SourceType
  confidence : Option Confidence := none
  reason : Option String := none
  deriving DecidableEq, Repr

/-- An edge map keyed by the `"source->target"` string. -/
abbrev EdgeMap := List (String × EdgeRecord)

/-- Model of `AnalysisContext` (the resolver and root are passed
separately; `exportedFunctions` is a value computed between passes). -/
structure AnalysisCtx where
  files : List (String × FileAnalysis)
  warnings : List String
  fileEdges : EdgeMap
  functionEdges : EdgeMap
  unresolved : List (String × List String)
  deriving DecidableEq, Repr

/-- The shared create-or-update shape used for static edges by
`resolveImports` (lines 583–592) and `collectFunctionEdges` (lines 642–651):
first writer wins on `kind`/`sourceType`, the optional fields are carried
over from the existing record. -/
def staticEdgeUpsert (m : EdgeMap) (src tgt : String) : EdgeMap :=
  mapSet m (src ++ "->" ++ tgt)
    { source := src, target := tgt,
      kind := ((mapGet m (src ++ "->" ++ tgt)).map (·.kind)).getD .imports,
      sourceType := ((mapGet m (src ++ "->" ++ tgt)).map (·.sourceType)).getD .static,
      confidence := (mapGet m (src ++ "->" ++ tgt)).bind (·.confidence),
      reason := (mapGet m (src ++ "->" ++ tgt)).bind (·.reason) }

/-- Addition to the per-file unresolved-specifier set (line 597–599). -/
def unresolvedAdd (u : List (String × List String)) (rel spec : String) :
    List (String × List String) :=
  let cur := (mapGet u rel).getD []
  mapSet u rel (insertUnique cur spec)

/-! ## Import resolution (`resolveImports`, lines 577–603) -/

/-- Accumulator threaded through `resolveImports`. -/
structure ResolveAcc where
  fileEdges : EdgeMap
  unresolved : List (String × List String)
  deriving DecidableEq, Repr

/-- Resolution of one import binding: on success the edge is upserted and
`resolved` is propagated to the binding and its specifiers; on failure a
non-empty specifier joins the file's unresolved set. -/
def resolveBinding (resolver : String → String → Option String) (relPath : String)
    (acc : ResolveAcc) (b : ImportBinding) : ResolveAcc × ImportBinding :=
  match resolver relPath b.source with
  | some r =>
    ({ acc with fileEdges := staticEdgeUpsert acc.fileEdges relPath r },
     { b with resolved := some r,
              specifiers := b.specifiers.map (fun sp => { sp with resolved := some r }) })
  | none =>
    (if b.source ≠ "" then { acc with unresolved := unresolvedAdd acc.unresolved relPath b.source }
     else acc, b)

/-- One file of `resolveImports`' outer loop: each binding of the entry is
resolved in order, the rebuilt entry is appended. -/
def resolveFilesStep (resolver : String → String → Option String)
    (s : ResolveAcc × List (String × FileAnalysis)) (entry : String × FileAnalysis) :
    ResolveAcc × List (String × FileAnalysis) :=
  let inner := entry.2.imports.foldl
    (fun (t : ResolveAcc × List ImportBinding) b =>
      let (acc, bs) := t
      let (acc, b') := resolveBinding resolver entry.1 acc b
      (acc, bs ++ [b'])) (s.1, [])
  (inner.1, s.2 ++ [(entry.1, { entry.2 with imports := inner.2 })])

/-- Model of `resolveImports`. -/
def resolveImports (resolver : String → String → Option String) (ctx : AnalysisCtx) :
    AnalysisCtx :=
  let out := ctx.files.foldl (resolveFilesStep resolver) (⟨ctx.fileEdges, ctx.unresolved⟩, [])
  { ctx with files := out.2, fileEdges := out.1.fileEdges, unresolved := out.1.unresolved }

/-! ## Export indexing (`collectFunctionExports`, lines 605–613)

The JavaScript map stores live references to the `FunctionInfo` objects; the
model stores the `(filePath, index)` address of the record instead, so that
later `include` mutations read and write the current state. -/

/-- One function record of `collectFunctionExports`' inner loop: an exported
record with a truthy export name is indexed under `"path:exportName"` by its
`(path, index)` address. -/
def exportIndexEntry (rel : String) (m : List (String × (String × Nat)))
    (p : Nat × FunctionInfo) : List (String × (String × Nat)) :=
  if p.2.isExported && jsTruthyStr p.2.exportName then
    mapSet m (rel ++ ":" ++ p.2.exportName.getD "") (rel, p.1)
  else m

/-- One file of `collectFunctionExports`' outer loop. -/
def collectFunctionExportsFile (m : List (String × (String × Nat)))
    (entry : String × FileAnalysis) : List (String × (String × Nat)) :=
  entry.2.functions.enum.foldl (exportIndexEntry entry.1) m

/-- Model of `collectFunctionExports`: keys are `"path:exportName"`, later
entries overwrite earlier ones as `Map.set` does. -/
def collectFunctionExports (files : List (String × FileAnalysis)) :
    List (String × (String × Nat)) :=
  files.foldl collectFunctionExportsFile []

/-! ## Call-edge derivation (`collectFunctionEdges`, lines 615–654) -/

/-- Apply a function-record update at `(filePath, index)` in the current
files state (model of mutating a live object reference). -/
def updateFnAt (files : List (String × FileAnalysis)) (rel : String) (i : Nat)
    (f : FunctionInfo → FunctionInfo) : List (String × FileAnalysis) :=
  files.map (fun entry =>
    if entry.1 == rel then
      (entry.1, { entry.2 with functions :=
        match entry.2.functions.get? i with
        | some fn => entry.2.functions.set i (f fn)
        | none => entry.2.functions })
    else entry)

/-- Apply a call-record update at `(filePath, index)` in the current files
state. -/
def updateCallAt (files : List (String × FileAnalysis)) (rel : String) (i : Nat)
    (f : CallBinding → CallBinding) : List (String × FileAnalysis) :=
  files.map (fun entry =>
    if entry.1 == rel then
      (entry.1, { entry.2 with calls :=
        match entry.2.calls.get? i with
        | some c => entry.2.calls.set i (f c)
        | none => entry.2.calls })
    else entry)

/-- State threaded through `collectFunctionEdges`. -/
structure FnEdgeState where
  files : List (String × FileAnalysis)
  functionEdges : EdgeMap
  deriving DecidableEq, Repr

/-- One call of `collectFunctionEdges`' inner loop, using the file's
specifier map and the export index: a resolved, import-bound call whose
target export exists marks caller and target `include := true`, stamps the
call's `resolved` field, and upserts the function edge. -/
def processResolvedCall (exports : List (String × (String × Nat))) (rel : String)
    (specMap : List (String × ImportSpecifierB)) (s : FnEdgeState) (ci : Nat) : FnEdgeState :=
  match (mapGet s.files rel).bind (fun fa => fa.calls.get? ci) with
  | none => s
  | some call =>
    match mapGet specMap call.localName with
    | none => s
    | some sp =>
      match sp.resolved with
      | none => s
      | some res =>
        let targetRef := match mapGet exports (res ++ ":" ++ sp.imported) with
          | some t => some t
          | none => mapGet exports (res ++ ":default")
        match targetRef with
        | none => s
        | some tAddr =>
          match (mapGet s.files rel).bind
              (fun fa => fa.functions.findIdx? (fun fn => fn.id == call.callerId)) with
          | none => s
          | some cIdx =>
            let callerId :=
              ((((mapGet s.files rel).bind (fun fa => fa.functions.get? cIdx)).map (·.id)).getD "")
            let files := updateFnAt s.files rel cIdx (fun fn => { fn with incl := true })
            let files := updateFnAt files tAddr.1 tAddr.2 (fun fn => { fn with incl := true })
            let files := updateCallAt files rel ci (fun c => { c with resolved := some res })
            let tgtId :=
              ((((mapGet files tAddr.1).bind (fun fa => fa.functions.get? tAddr.2)).map (·.id)).getD "")
            { files := files, functionEdges := staticEdgeUpsert s.functionEdges callerId tgtId }

/-- Model of `collectFunctionEdges` for one file: the specifier map is built
once from the file's (already resolved) imports, then each recorded call is
processed. -/
def collectFunctionEdgesFile (exports : List (String × (String × Nat))) (s : FnEdgeState)
    (rel : String) : FnEdgeState :=
  match mapGet s.files rel with
  | none => s
  | some fa =>
    let specMap := fa.imports.foldl
      (fun m b => b.specifiers.foldl (fun m sp => mapSet m sp.localName sp) m) []
    (List.range fa.calls.length).foldl (processResolvedCall exports rel specMap) s

/-- Model of `collectFunctionEdges` over all files, using the export index
computed by `collectFunctionExports`. -/
def collectFunctionEdges (ctx : AnalysisCtx) : AnalysisCtx :=
  let exports := collectFunctionExports ctx.files
  let s := (ctx.files.map (·.1)).foldl (collectFunctionEdgesFile exports)
    { files := ctx.files, functionEdges := ctx.functionEdges }
  { ctx with files := s.files, functionEdges := s.functionEdges }

/-! ## LLM enrichment (`enrichRelationshipsWithLLM`, lines 656–797)

The HTTP round trip of `inferRelationshipsWithLLM` is external to the
pipeline; its already-normalised reply (or `null` when no credential is
configured) is a parameter.  The digest list sent out (lines 658–683) is
read-only and does not influence the merge, so it is not materialized. -/

/-- Model of `LLMRelationshipFileEdge` (`src/lib/llm.ts`). -/
structure LLMRelationshipFileEdge where
  source : String
  target : String
  relationship : String
  confidence : Option Confidence := none
  deriving DecidableEq, Repr

/-- Endpoint of an LLM-proposed function edge. -/
structure LLMFnEndpoint where
  filePath : String
  symbol : String
  deriving DecidableEq, Repr

/-- Model of `LLMRelationshipFunctionEdge`. -/
structure LLMRelationshipFunctionEdge where
  source : LLMFnEndpoint
  target : LLMFnEndpoint
  relationship : String
  confidence : Option Confidence := none
  reason : Option String := none
  deriving DecidableEq, Repr

/-- Model of `LLMRelationshipResult`. -/
structure LLMRelationshipResult where
  fileEdges : List LLMRelationshipFileEdge
  functionEdges : List LLMRelationshipFunctionEdge
  notes : List String
  deriving DecidableEq, Repr

/-- The file-edge kind rule of the enrichment merge (line 702): the
lower-cased label must equal `imports` verbatim, anything else is an
`llm-reference`. -/
def llmFileEdgeKind (relationship : String) : EdgeKind :=
  if jsToLowerCase relationship = "imports" then .imports else .llmReference

/-- The function-edge kind rule of the enrichment merge (lines 757–760): a
lower-cased label containing `call` or `invoke` becomes `invokes`, anything
else an `llm-reference`. -/
def llmFunctionEdgeKind (relationship : String) : EdgeKind :=
  let rel := jsToLowerCase relationship
  if strIncludes rel "call" || strIncludes rel "invoke" then .invokes else .llmReference

/-- The confidence backfill of the enrichment merges: only a missing
confidence is filled. -/
def llmConfMerge (ex : EdgeRecord) (conf : Option Confidence) : EdgeRecord :=
  if ex.confidence.isNone then { ex with confidence := conf } else ex

/-- The reason backfill of the function-edge merge: a truthy proposal reason
is appended to a present reason, or fills a missing one. -/
def llmReasonMerge (ex : EdgeRecord) (reason : Option String) : EdgeRecord :=
  if jsTruthyStr reason then
    { ex with reason := if jsTruthyStr ex.reason
        then some ((ex.reason.getD "") ++ " " ++ (reason.getD ""))
        else reason }
  else ex

/-- Merge of one LLM file edge into the file-edge map (lines 700–718): an
existing record only gains a missing confidence (its `reason` is never
touched for file edges); a fresh key inserts an `llm`-provenance edge.  The
boolean reports whether a new edge was inserted (for the `llmFileEdges`
counter). -/
def llmFileEdgeApply (m : EdgeMap) (e : LLMRelationshipFileEdge) : EdgeMap × Bool :=
  match mapGet m (e.source ++ "->" ++ e.target) with
  | some ex =>
    (mapSet m (e.source ++ "->" ++ e.target) (llmConfMerge ex e.confidence), false)
  | none =>
    (mapSet m (e.source ++ "->" ++ e.target)
      { source := e.source, target := e.target, kind := llmFileEdgeKind e.relationship,
        sourceType := .llm, confidence := e.confidence }, true)

/-- Merge of one LLM function edge into the function-edge map (lines
761–779), given the already-resolved endpoint ids and inferred kind: an
existing record gains a missing confidence and — when the proposal carries a
truthy reason — has the reason appended to any present one; a fresh key
inserts an `llm`-provenance edge. -/
def llmFunctionEdgeApply (m : EdgeMap) (srcId tgtId : String) (inferredKind : EdgeKind)
    (conf : Option Confidence) (reason : Option String) : EdgeMap × Bool :=
  match mapGet m (srcId ++ "->" ++ tgtId) with
  | some ex =>
    (mapSet m (srcId ++ "->" ++ tgtId) (llmReasonMerge (llmConfMerge ex conf) reason), false)
  | none =>
    (mapSet m (srcId ++ "->" ++ tgtId)
      { source := srcId, target := tgtId, kind := inferredKind,
        sourceType := .llm, confidence := conf, reason := reason }, true)

/-- Model of the `functionLookup` construction (lines 721–743): every
function record is addressable by its id and by `path:symbol` combinations;
bare `exportName`/`name` keys are added only when absent.  Values are
`(filePath, index)` addresses of the live records. -/
def buildFunctionLookup (files : List (String × FileAnalysis)) :
    List (String × (String × Nat)) :=
  files.foldl (fun m entry =>
    let (rel, fa) := entry
    fa.functions.enum.foldl (fun m p =>
      let (i, fn) := p
      let ids := [fn.id]
      let ids := if jsTruthyStr fn.exportName
        then insertUnique ids (rel ++ ":" ++ fn.exportName.getD "") else ids
      let ids := if fn.name ≠ "" then insertUnique ids (rel ++ ":" ++ fn.name) else ids
      let ids := insertUnique ids (rel ++ ":" ++ (fn.exportName.getD fn.name))
      let m := ids.foldl (fun m k => mapSet m k (rel, i)) m
      let m := if jsTruthyStr fn.exportName && (mapGet m (fn.exportName.getD "")).isNone
        then mapSet m (fn.exportName.getD "") (rel, i) else m
      let m := if fn.name ≠ "" && (mapGet m fn.name).isNone
        then mapSet m fn.name (rel, i) else m
      m) m) []

/-- Plural suffix used by the LLM summary warning. -/
def pluralS (n : Nat) : String := if n = 1 then "" else "s"

/-- The summary warning appended when the LLM contributed edges (lines
787–791). -/
def llmSummaryWarning (nFile nFn : Nat) : String :=
  "LLM inferred " ++ toString nFile ++ " file relationship" ++ pluralS nFile ++
  " and " ++ toString nFn ++ " function relationship" ++ pluralS nFn ++ "."

/-- The file-edge merge loop of the enrichment pass (lines 700–719): a
proposal is considered only when both endpoints are paths of analyzed
files. -/
def llmFileEdgesLoop (filePaths : List String) (s : EdgeMap × Nat)
    (e : LLMRelationshipFileEdge) : EdgeMap × Nat :=
  if filePaths.contains e.source && filePaths.contains e.target then
    let out := llmFileEdgeApply s.1 e
    (out.1, if out.2 then s.2 + 1 else s.2)
  else s

/-- The function-edge merge loop of the enrichment pass (lines 745–780). -/
def llmFunctionEdgesLoop (lookup : List (String × (String × Nat)))
    (s : List (String × FileAnalysis) × EdgeMap × Nat) (e : LLMRelationshipFunctionEdge) :
    List (String × FileAnalysis) × EdgeMap × Nat :=
  let (files, m, n) := s
  match mapGet lookup (e.source.filePath ++ ":" ++ e.source.symbol),
        mapGet lookup (e.target.filePath ++ ":" ++ e.target.symbol) with
  | some sAddr, some tAddr =>
    let files := updateFnAt files sAddr.1 sAddr.2 (fun fn => { fn with incl := true })
    let files := updateFnAt files tAddr.1 tAddr.2 (fun fn => { fn with incl := true })
    let sId := ((((mapGet files sAddr.1).bind (fun fa => fa.functions.get? sAddr.2)).map (·.id)).getD "")
    let tId := ((((mapGet files tAddr.1).bind (fun fa => fa.functions.get? tAddr.2)).map (·.id)).getD "")
    let out := llmFunctionEdgeApply m sId tId (llmFunctionEdgeKind e.relationship)
      e.confidence e.reason
    (files, out.1, if out.2 then n + 1 else n)
  | _, _ => (files, m, n)

/-- Model of `enrichRelationshipsWithLLM`; a `none` result models the
missing-credential path, which only appends the informational warning. -/
def enrichRelationshipsWithLLM (ctx : AnalysisCtx) (result : Option LLMRelationshipResult) :
    AnalysisCtx :=
  match result with
  | none =>
    { ctx with warnings := ctx.warnings ++
        ["Set OPENAI_API_KEY to enable LLM-inferred relationships."] }
  | some result =>
    let filePaths := ctx.files.map (·.1)
    let fileOut := result.fileEdges.foldl (llmFileEdgesLoop filePaths) (ctx.fileEdges, 0)
    let lookup := buildFunctionLookup ctx.files
    let fnOut := result.functionEdges.foldl (llmFunctionEdgesLoop lookup)
      (ctx.files, ctx.functionEdges, 0)
    let warnings := ctx.warnings ++ result.notes.map (fun note => "LLM: " ++ note)
    let warnings := if fileOut.2 ≠ 0 || fnOut.2.2 ≠ 0
      then warnings ++ [llmSummaryWarning fileOut.2 fnOut.2.2] else warnings
    { ctx with files := fnOut.1, fileEdges := fileOut.1, functionEdges := fnOut.2.1,
               warnings := warnings }

/-! ## Unresolved-import warnings (`collectUnresolvedWarnings`, lines 799–809) -/

/-- The warning produced for one file's unresolved specifiers. -/
def unresolvedWarning (file : String) (specifiers : List String) : String :=
  let summary := joinSep ", " (specifiers.take 5)
  if specifiers.length > 5
  then "Some imports in " ++ file ++ " could not be resolved: " ++ summary ++ ", …"
  else "Could not resolve imports in " ++ file ++ ": " ++ summary

/-- Model of `collectUnresolvedWarnings`. -/
def collectUnresolvedWarnings (ctx : AnalysisCtx) : AnalysisCtx :=
  { ctx with warnings := ctx.warnings ++
      ctx.unresolved.map (fun e => unresolvedWarning e.1 e.2) }

/-! ## Node/edge materialization and the pipeline
(`analyzeRepositoryGraph`, lines 105–268) -/

/-- Output file/directory node (`FileNode`). -/
structure FileNodeOut where
  id : String
  label : String
  path : String
  kind : String
  deriving DecidableEq, Repr

/-- Output edge (`FileEdge` / `FunctionEdge`). -/
structure GraphEdgeOut where
  id : String
  source : String
  target : String
  kind : EdgeKind
  sourceType : SourceType
  confidence : Option Confidence
  reason : Option String
  deriving DecidableEq, Repr

/-- Output function node (`FunctionNode`; the `loc` span is not modelled). -/
structure FunctionNodeOut where
  id : String
  label : String
  filePath : String
  exportName : Option String
  deriving DecidableEq, Repr

/-- The pipeline's response minus the wall-clock fields `durationMs` and
`generatedAt`. -/
structure AnalyzeOutput where
  fileNodes : List FileNodeOut
  fileEdges : List GraphEdgeOut
  functionNodes : List FunctionNodeOut
  functionEdges : List GraphEdgeOut
  warnings : List String
  fileCount : Nat
  directoryCount : Nat
  functionCount : Nat
  deriving DecidableEq, Repr

/-- The directory set (lines 131–138): relative directory paths with the
empty path rendered `.`, plus the root, deduplicated in insertion order. -/
def directorySetOf (dirs : List String) : List String :=
  ((dirs.map (fun rel => if rel = "" then "." else rel)) ++ ["."]).foldl insertUnique []

/-- One directory node (lines 186–196). -/
def mkDirectoryNode (repoLabel : String) (relPath : String) : FileNodeOut :=
  let isRoot := relPath = "." || relPath = ""
  let displayPath := if isRoot then "." else relPath
  let base := posixBasename relPath
  let labelBase := if isRoot then repoLabel else (if base = "" then repoLabel else base)
  { id := "dir:" ++ displayPath, label := labelBase ++ "/", path := displayPath,
    kind := "directory" }

/-- Projection from an edge record to an output edge (lines 210–218 and
238–246). -/
def edgeToOut (e : EdgeRecord) : GraphEdgeOut :=
  { id := e.source ++ "->" ++ e.target, source := e.source, target := e.target,
    kind := e.kind, sourceType := e.sourceType, confidence := e.confidence,
    reason := e.reason }

/-- Function-node materialization (lines 220–236): records with
`include = true`, deduplicated by id in first-seen order. -/
def functionNodesOf (files : List (String × FileAnalysis)) : List FunctionNodeOut :=
  (files.foldl (fun (acc : List FunctionNodeOut × List String) entry =>
    entry.2.functions.foldl (fun (acc : List FunctionNodeOut × List String) fn =>
      if !fn.incl then acc
      else if acc.2.contains fn.id then acc
      else (acc.1 ++ [{ id := fn.id, label := fn.exportName.getD fn.name,
                        filePath := fn.filePath, exportName := fn.exportName }],
            acc.2 ++ [fn.id])) acc) ([], [])).1

/-- Node/edge materialization of the response (lines 183–265). -/
def materialize (repoLabel : String) (allFiles : List String) (dirs : List String)
    (ctx : AnalysisCtx) : AnalyzeOutput :=
  let parsedFileNodes := ctx.files.map (·.1)
  let directoryNodes := (directorySetOf dirs).map (mkDirectoryNode repoLabel)
  let fileNodes := directoryNodes ++
    (allFiles.filter (fun rel => parsedFileNodes.contains rel)).map (fun rel =>
      let base := posixBasename rel
      { id := rel, label := if base = "" then repoLabel else base, path := rel,
        kind := "file" : FileNodeOut })
  let fnNodes := functionNodesOf ctx.files
  { fileNodes := fileNodes,
    fileEdges := ctx.fileEdges.map (fun e => edgeToOut e.2),
    functionNodes := fnNodes,
    functionEdges := ctx.functionEdges.map (fun e => edgeToOut e.2),
    warnings := ctx.warnings,
    fileCount := parsedFileNodes.length,
    directoryCount := directoryNodes.length,
    functionCount := fnNodes.length }

/-- Outcome of parsing one file's content (a Babel parse failure is caught
and turned into a warning). -/
inductive ParseOutcome
  | ok (stmts : List Stmt)
  | failed (msg : String)
  deriving DecidableEq, Repr

/-- One repository file: its relative path and how parsing it would go.  The
`parse` field is consulted only for files whose extension is supported. -/
structure RepoFile where
  rel : String
  parse : ParseOutcome
  deriving DecidableEq, Repr

/-- The parse targets (line 144): files whose lower-cased extension is
supported. -/
def parseTargets (files : List RepoFile) : List RepoFile :=
  files.filter (fun f => SUPPORTED_EXTENSIONS.contains (jsToLowerCase (posixExtname f.rel)))

/-- Population of `ctx.files` by the parallel extraction phase (lines
160–171).  `arrival` is the completion order of the per-file promises — a
permutation of the parse targets; a failure contributes a warning instead of
an entry. -/
def extractStep (s : List (String × FileAnalysis) × List String) (f : RepoFile) :
    List (String × FileAnalysis) × List String :=
  match f.parse with
  | .ok stmts => (mapSet s.1 f.rel (analyzeFile f.rel stmts), s.2)
  | .failed msg => (s.1, s.2 ++ ["Failed to analyze " ++ f.rel ++ ": " ++ msg])

/-- The extraction fold over the completion order. -/
def extractFiles (arrival : List RepoFile) : List (String × FileAnalysis) × List String :=
  arrival.foldl extractStep ([], [])

/-- The analysis context after the deterministic passes (`resolveImports`,
`collectFunctionExports`/`collectFunctionEdges`), before enrichment. -/
def staticAnalysisCtx (files : List RepoFile) (tsPaths : List TsconfigPathsEntry)
    (arrival : List RepoFile) : AnalysisCtx :=
  let fileSet := files.map (·.rel)
  let resolver := resolveSpecifier fileSet tsPaths
  let ext := extractFiles arrival
  let ws := if ext.1.isEmpty
    then ext.2 ++ ["No supported source files were parsed. File graph includes nodes without edges."]
    else ext.2
  let ctx : AnalysisCtx :=
    { files := ext.1, warnings := ws, fileEdges := [], functionEdges := [], unresolved := [] }
  collectFunctionEdges (resolveImports resolver ctx)

/-- Model of `analyzeRepositoryGraph`: empty input raises the
`RepoScannerError` of line 141; otherwise the static passes run over the
extraction results (in completion order `arrival`), enrichment and warning
aggregation follow, and the response is materialized. -/
def analyzeRepositoryGraph (repoLabel : String) (files : List RepoFile) (dirs : List String)
    (tsPaths : List TsconfigPathsEntry) (llm : Option LLMRelationshipResult)
    (arrival : List RepoFile) : Except String AnalyzeOutput :=
  if files.isEmpty then .error "No files were found in the repository."
  else
    let ctx := staticAnalysisCtx files tsPaths arrival
    let ctx := enrichRelationshipsWithLLM ctx llm
    let ctx := collectUnresolvedWarnings ctx
    .ok (materialize repoLabel (files.map (·.rel)) dirs ctx)

/-! ## JSON values and a strict `JSON.parse` model (for `src/lib/llm.ts`)

The enrichment parser cleans the LLM reply with a chain of regular
expressions and then calls `JSON.parse`.  `Json` is the parsed-value type;
the parser below implements the strict JSON grammar (in particular it
rejects trailing commas and raw control characters inside strings, as
`JSON.parse` does).  Numeric values are carried as their lexeme: nothing
downstream reads a number.  A `\u` escape becomes the denoted character
when it is a scalar value (surrogate-pair combination is not modelled: the
claims' inputs contain no escapes). -/

/-- Parsed JSON value. -/
inductive Json
  | null
  | bool (b : Bool)
  | num (raw : String)
  | str (s : String)
  | arr (elems : List Json)
  | obj (fields : List (String × Json))
  deriving Repr

/-- JSON insignificant whitespace. -/
def jsonWs (cs : List Char) : List Char :=
  cs.dropWhile (fun c => c = ' ' || c = '\t' || c = '\n' || c = '\r')

/-- Value of one hexadecimal digit (code points 0-9, a-f, A-F). -/
def hexDigitVal (c : Char) : Option Nat :=
  let n := c.toNat
  if 48 ≤ n ∧ n ≤ 57 then some (n - 48)
  else if 97 ≤ n ∧ n ≤ 102 then some (n - 87)
  else if 65 ≤ n ∧ n ≤ 70 then some (n - 55)
  else none

/-- Four hex digits of a `\u` escape. -/
def parseHex4 : List Char → Option (Nat × List Char)
  | a :: b :: c :: d :: rest =>
    match hexDigitVal a, hexDigitVal b, hexDigitVal c, hexDigitVal d with
    | some va, some vb, some vc, some vd => some (((va * 16 + vb) * 16 + vc) * 16 + vd, rest)
    | _, _, _, _ => none
  | _ => none

/-- JSON string body after the opening quote. -/
def parseJStringAux : Nat → List Char → List Char → Option (String × List Char)
  | 0, _, _ => none
  | fuel + 1, acc, cs =>
    match cs with
    | [] => none
    | '"' :: rest => some (⟨acc.reverse⟩, rest)
    | '\\' :: esc :: rest =>
      match esc with
      | '"' => parseJStringAux fuel ('"' :: acc) rest
      | '\\' => parseJStringAux fuel ('\\' :: acc) rest
      | '/' => parseJStringAux fuel ('/' :: acc) rest
      | 'b' => parseJStringAux fuel (Char.ofNat 8 :: acc) rest
      | 'f' => parseJStringAux fuel (Char.ofNat 12 :: acc) rest
      | 'n' => parseJStringAux fuel ('\n' :: acc) rest
      | 'r' => parseJStringAux fuel ('\r' :: acc) rest
      | 't' => parseJStringAux fuel ('\t' :: acc) rest
      | 'u' =>
        match parseHex4 rest with
        | some (n, rest2) => parseJStringAux fuel (Char.ofNat n :: acc) rest2
        | none => none
      | _ => none
    | c :: rest => if c.toNat < 32 then none else parseJStringAux fuel (c :: acc) rest

/-- Fraction and exponent parts of a JSON number (empty when absent or
malformed: a malformed tail is then rejected by the surrounding context,
as with `JSON.parse`). -/
def numTail (cs : List Char) : List Char × List Char :=
  let fr := match cs with
    | '.' :: r =>
      let ds := r.takeWhile Char.isDigit
      if ds.isEmpty then (([] : List Char), cs) else ('.' :: ds, r.drop ds.length)
    | _ => ([], cs)
  let ex := match fr.2 with
    | e :: r =>
      if e = 'e' || e = 'E' then
        let sgn := match r with
          | s :: r2 => if s = '+' || s = '-' then ([s], r2) else (([] : List Char), r)
          | [] => ([], r)
        let ds := sgn.2.takeWhile Char.isDigit
        if ds.isEmpty then (([] : List Char), fr.2)
        else (e :: (sgn.1 ++ ds), sgn.2.drop ds.length)
      else ([], fr.2)
    | [] => ([], fr.2)
  (fr.1 ++ ex.1, ex.2)

/-- JSON number lexeme. -/
def parseJNumber (cs : List Char) : Option (String × List Char) :=
  let sign := match cs with
    | '-' :: r => ((['-'] : List Char), r)
    | _ => ([], cs)
  match sign.2 with
  | '0' :: r =>
    let t := numTail r
    some (⟨sign.1 ++ '0' :: t.1⟩, t.2)
  | c :: r =>
    if c.isDigit then
      let ds := r.takeWhile Char.isDigit
      let t := numTail (r.drop ds.length)
      some (⟨sign.1 ++ c :: (ds ++ t.1)⟩, t.2)
    else none
  | [] => none

mutual

/-- Recursive-descent JSON value parser (fuelled; the fuel is ample for the
inputs it is run on). -/
def parseJValue : Nat → List Char → Option (Json × List Char)
  | 0, _ => none
  | fuel + 1, cs =>
    match jsonWs cs with
    | 't' :: 'r' :: 'u' :: 'e' :: rest => some (.bool true, rest)
    | 'f' :: 'a' :: 'l' :: 's' :: 'e' :: rest => some (.bool false, rest)
    | 'n' :: 'u' :: 'l' :: 'l' :: rest => some (.null, rest)
    | '"' :: rest => (parseJStringAux fuel [] rest).map (fun p => (.str p.1, p.2))
    | '[' :: rest =>
      match jsonWs rest with
      | ']' :: r2 => some (.arr [], r2)
      | _ => (parseJArrayRest fuel rest []).map (fun p => (.arr p.1, p.2))
    | '{' :: rest =>
      match jsonWs rest with
      | '}' :: r2 => some (.obj [], r2)
      | _ => (parseJObjectRest fuel rest []).map (fun p => (.obj p.1, p.2))
    | c :: rest =>
      if c = '-' || c.isDigit then (parseJNumber (c :: rest)).map (fun p => (.num p.1, p.2))
      else none
    | [] => none

/-- Array elements after the first (strict: no trailing comma). -/
def parseJArrayRest : Nat → List Char → List Json → Option (List Json × List Char)
  | 0, _, _ => none
  | fuel + 1, cs, acc =>
    match parseJValue fuel cs with
    | none => none
    | some (v, rest) =>
      match jsonWs rest with
      | ',' :: rest2 => parseJArrayRest fuel rest2 (acc ++ [v])
      | ']' :: rest2 => some (acc ++ [v], rest2)
      | _ => none

/-- Object members after the first (strict: no trailing comma). -/
def parseJObjectRest : Nat → List Char → List (String × Json) →
    Option (List (String × Json) × List Char)
  | 0, _, _ => none
  | fuel + 1, cs, acc =>
    match jsonWs cs with
    | '"' :: rest =>
      match parseJStringAux fuel [] rest with
      | none => none
      | some (k, rest1) =>
        match jsonWs rest1 with
        | ':' :: rest2 =>
          match parseJValue fuel rest2 with
          | none => none
          | some (v, rest3) =>
            match jsonWs rest3 with
            | ',' :: rest4 => parseJObjectRest fuel rest4 (acc ++ [(k, v)])
            | '}' :: rest4 => some (acc ++ [(k, v)], rest4)
            | _ => none
        | _ => none
    | _ => none

end

/-- Model of `JSON.parse`: a single value with only whitespace around it. -/
def jsonParse (s : String) : Option Json :=
  match parseJValue (4 * s.length + 64) s.data with
  | some (v, rest) => if (jsonWs rest).isEmpty then some v else none
  | none => none

/-- Field access on a parsed object (duplicate keys: the last wins, as for
the object `JSON.parse` builds). -/
def Json.getField : Json → String → Option Json
  | .obj fields, k => ((fields.reverse).find? (fun p => p.1 == k)).map (·.2)
  | _, _ => none

/-- String projection. -/
def Json.asString : Json → Option String
  | .str s => some s
  | _ => none

/-- Array projection (model of `Array.isArray`). -/
def Json.asArray : Json → Option (List Json)
  | .arr l => some l
  | _ => none

/-- Model of `value && typeof value === 'object'`: objects and arrays pass,
`null` and primitives do not. -/
def Json.isObjLike : Json → Bool
  | .obj _ => true
  | .arr _ => true
  | _ => false

/-! ## The response clean-up chain of `inferRelationshipsWithLLM`
(`src/lib/llm.ts` lines 126–187)

Each `String.prototype.replace(regex, …)` with the `g` flag is modelled by a
generic scan driver together with a deterministic matcher for the concrete
pattern (none of the patterns used requires backtracking beyond what the
matchers implement).  As in JS, an empty match contributes its replacement
and the scan advances one character. -/

/-- JS `\s` on the character classes arising here. -/
def isJsWs (c : Char) : Bool :=
  c = ' ' || c = '\t' || c = '\n' || c = '\r' || c.toNat = 11 || c.toNat = 12

/-- JS `\w`. -/
def isWordChar (c : Char) : Bool :=
  c.isAlphanum || c = '_'

/-- Generic driver for `String.prototype.replace` with a global regex: a
matcher yields the consumed length and the replacement text at a position
(fuelled: every step consumes at least one character, so one unit of fuel
per character plus one for a final empty match suffices). -/
def jsGlobalReplaceAux (matchAt : List Char → Option (Nat × List Char)) :
    Nat → List Char → List Char
  | 0, l => l
  | _ + 1, [] =>
    match matchAt [] with
    | some (_, repl) => repl
    | none => []
  | fuel + 1, c :: rest =>
    match matchAt (c :: rest) with
    | some (0, repl) => repl ++ c :: jsGlobalReplaceAux matchAt fuel rest
    | some (k + 1, repl) => repl ++ jsGlobalReplaceAux matchAt fuel (rest.drop k)
    | none => c :: jsGlobalReplaceAux matchAt fuel rest

/-- String-level wrapper of the replace driver. -/
def jsGlobalReplace (matchAt : List Char → Option (Nat × List Char)) (s : String) : String :=
  ⟨jsGlobalReplaceAux matchAt (s.data.length + 1) s.data⟩

/-- Matcher for `/,(\s*[}\]])/g` replaced by `'$1'`. -/
def fixCommaClose : List Char → Option (Nat × List Char)
  | ',' :: rest =>
    let ws := rest.takeWhile isJsWs
    match rest.drop ws.length with
    | b :: _ => if b = '}' || b = ']' then some (1 + ws.length + 1, ws ++ [b]) else none
    | [] => none
  | _ => none

/-- Matcher for `/}(\s*"){/g` replaced by `'},$1{'` (and the `]` variant). -/
def fixBraceQuote (openC : Char) : List Char → Option (Nat × List Char)
  | c :: rest =>
    if c = openC then
      let ws := rest.takeWhile isJsWs
      match rest.drop ws.length with
      | '"' :: '{' :: _ => some (1 + ws.length + 2, [openC, ','] ++ ws ++ ['"', '{'])
      | _ => none
    else none
  | [] => none

/-- Matcher for `/}(\s*\w)/g` replaced by `'},$1'` (and the `]` variant). -/
def fixBraceWord (openC : Char) : List Char → Option (Nat × List Char)
  | c :: rest =>
    if c = openC then
      let ws := rest.takeWhile isJsWs
      match rest.drop ws.length with
      | w :: _ => if isWordChar w then some (1 + ws.length + 1, [openC, ','] ++ ws ++ [w]) else none
      | [] => none
    else none
  | [] => none

/-- Matcher for `/}[^}]*$/g` replaced by `'}'`. -/
def fixCloseTail : List Char → Option (Nat × List Char)
  | '}' :: rest => if rest.all (· ≠ '}') then some (1 + rest.length, ['}']) else none
  | _ => none

/-- Matcher for `/}*\s*$/g` replaced by `'}'` (matches the empty string at
the very end, which — as in JS — fires once more after a match that ended
there). -/
def fixTrailing (cs : List Char) : Option (Nat × List Char) :=
  let br := cs.takeWhile (· = '}')
  let rest := cs.drop br.length
  let ws := rest.takeWhile isJsWs
  if (rest.drop ws.length).isEmpty then some (br.length + ws.length, ['}']) else none

/-- Removal of control characters, `/[\u0000-\u001F\u007F-\u009F]/g`. -/
def stripControlChars (s : String) : String :=
  ⟨s.data.filter (fun c => !(c.toNat ≤ 31 || (127 ≤ c.toNat && c.toNat ≤ 159)))⟩

/-- Whitespace trim at both ends (the behaviour of `String.prototype.trim`
on the replies considered). -/
def strTrim (s : String) : String :=
  ⟨((s.data.dropWhile Char.isWhitespace).reverse.dropWhile Char.isWhitespace).reverse⟩

/-- Replacement of the two-character sequence CR LF by a space
(`.replace(/\r\n/g, ' ')`). -/
def replaceCRLF : List Char → List Char
  | '\r' :: '\n' :: rest => ' ' :: replaceCRLF rest
  | c :: rest => c :: replaceCRLF rest
  | [] => []

/-- Replacement of every occurrence of one character by a space. -/
def charToSpace (a : Char) (cs : List Char) : List Char :=
  cs.map (fun c => if c = a then ' ' else c)

/-- Tail check of the fence pattern: after the capture's closing brace the
remainder must begin with `\s*` and three backticks. -/
def fenceCloseTail (cs : List Char) : Bool :=
  (String.data "```").isPrefixOf (cs.dropWhile isJsWs)

/-- Greedy choice of the capture's closing brace: the largest index holding
`}` whose tail passes `fenceCloseTail`. -/
def lastFenceClose (l : List Char) : Option Nat :=
  (List.range l.length).foldl (fun acc j =>
    if l.get? j = some '}' && fenceCloseTail (l.drop (j + 1)) then some j else acc) none

/-- Body of the fence pattern after the backticks (and optional `json`):
`\s*(\{[\s\S]*\})\s*` followed by closing backticks; returns capture 1. -/
def fenceBody (cs : List Char) : Option (List Char) :=
  let afterWs := cs.dropWhile isJsWs
  match afterWs with
  | '{' :: _ =>
    match lastFenceClose afterWs with
    | some j => some (afterWs.take (j + 1))
    | none => none
  | _ => none

/-- Fence match attempt at one position (the optional `json` tag is tried
greedily first, as the regex engine does). -/
def fenceMatchAt (cs : List Char) : Option (List Char) :=
  if (String.data "```").isPrefixOf cs then
    let rest := cs.drop 3
    match (if (String.data "json").isPrefixOf rest then fenceBody (rest.drop 4) else none) with
    | some g => some g
    | none => fenceBody rest
  else none

/-- First match of `/```(?:json)?\s*(\{[\s\S]*\})\s*```/` (capture 1). -/
def fenceSearch : List Char → Option (List Char)
  | [] => none
  | c :: rest =>
    match fenceMatchAt (c :: rest) with
    | some g => some g
    | none => fenceSearch rest

/-- Trim to the outermost `{…}` span: `substring(indexOf('{'),
lastIndexOf('}') + 1)` when both exist in order. -/
def braceTrim (s : String) : String :=
  let cs := s.data
  let i? := cs.findIdx? (fun c => c = '{')
  let j? := (cs.reverse.findIdx? (fun c => c = '}')).map (fun r => cs.length - 1 - r)
  match i?, j? with
  | some i, some j => if j > i then ⟨(cs.take (j + 1)).drop i⟩ else s
  | _, _ => s

/-- Body of the partial-object regex after its opening brace:
`[^{}]*(?:\{[^{}]*\}[^{}]*)*\}`; returns the consumed length. -/
def partialBody : Nat → List Char → Option Nat
  | 0, _ => none
  | fuel + 1, cs =>
    let flat := cs.takeWhile (fun c => c ≠ '{' && c ≠ '}')
    match cs.drop flat.length with
    | '}' :: _ => some (flat.length + 1)
    | '{' :: cs2 =>
      let inner := cs2.takeWhile (fun c => c ≠ '{' && c ≠ '}')
      match cs2.drop inner.length with
      | '}' :: cs3 =>
        (partialBody fuel cs3).map (fun m => flat.length + 1 + inner.length + 1 + m)
      | _ => none
    | _ => none

/-- First match of the fallback regex `/\{[^{}]*(?:\{[^{}]*\}[^{}]*)*\}/`. -/
def partialSearch : List Char → Option (List Char)
  | [] => none
  | c :: rest =>
    if c = '{' then
      match partialBody (rest.length + 1) rest with
      | some m => some ('{' :: rest.take m)
      | none => partialSearch rest
    else partialSearch rest

/-- The clean-up chain applied to the raw reply text (lines 127–163). -/
def cleanLLMText (jsonText : String) : String :=
  let s := strTrim jsonText
  let s := match fenceSearch s.data with
    | some g => (⟨g⟩ : String)
    | none => s
  let s := stripControlChars s
  let s := (⟨charToSpace '\t' (charToSpace '\r' (charToSpace '\n' (replaceCRLF s.data)))⟩ : String)
  let s := braceTrim s
  let s := jsGlobalReplace fixCommaClose s
  let s := jsGlobalReplace (fixBraceQuote '}') s
  let s := jsGlobalReplace (fixBraceQuote ']') s
  let s := jsGlobalReplace (fixBraceWord '}') s
  let s := jsGlobalReplace (fixBraceWord ']') s
  let s := jsGlobalReplace fixCloseTail s
  let s := jsGlobalReplace fixTrailing s
  s

/-! ## Result normalisation (`normaliseResult`, `toFileEdge`,
`toFunctionEdge`; `src/lib/llm.ts` lines 200–281) -/

/-- The `['low','medium','high'].includes` check on an optional string. -/
def strToConfidence : Option String → Option Confidence
  | some "low" => some .low
  | some "medium" => some .medium
  | some "high" => some .high
  | _ => none

/-- Model of `toFileEdge`. -/
def toFileEdge (raw : Json) : Option LLMRelationshipFileEdge :=
  if !raw.isObjLike then none
  else
    match (raw.getField "source").bind Json.asString,
          (raw.getField "target").bind Json.asString with
    | some src, some tgt =>
      some { source := src, target := tgt,
             relationship := (((raw.getField "relationship").bind Json.asString)).getD "uses",
             confidence := strToConfidence ((raw.getField "confidence").bind Json.asString) }
    | _, _ => none

/-- Model of `toFunctionEdge`. -/
def toFunctionEdge (raw : Json) : Option LLMRelationshipFunctionEdge :=
  if !raw.isObjLike then none
  else
    match raw.getField "source", raw.getField "target" with
    | some src, some tgt =>
      if !src.isObjLike || !tgt.isObjLike then none
      else
        match (src.getField "filePath").bind Json.asString,
              (src.getField "symbol").bind Json.asString,
              (tgt.getField "filePath").bind Json.asString,
              (tgt.getField "symbol").bind Json.asString with
        | some sfp, some ssym, some tfp, some tsym =>
          some { source := { filePath := sfp, symbol := ssym },
                 target := { filePath := tfp, symbol := tsym },
                 relationship := (((raw.getField "relationship").bind Json.asString)).getD "calls",
                 confidence := strToConfidence ((raw.getField "confidence").bind Json.asString),
                 reason := (raw.getField "reason").bind Json.asString }
        | _, _, _, _ => none
    | _, _ => none

/-- The empty result returned on unrecoverable parse failure. -/
def emptyLLMResult : LLMRelationshipResult :=
  { fileEdges := [], functionEdges := [], notes := [] }

/-- Model of `normaliseResult`. -/
def normaliseResult (payload : Json) : LLMRelationshipResult :=
  if !payload.isObjLike then emptyLLMResult
  else
    { notes := match (payload.getField "notes").bind Json.asArray with
        | some l => l.filterMap Json.asString
        | none => [],
      fileEdges := match (payload.getField "fileEdges").bind Json.asArray with
        | some l => l.filterMap toFileEdge
        | none => [],
      functionEdges := match (payload.getField "functionEdges").bind Json.asArray with
        | some l => l.filterMap toFunctionEdge
        | none => [] }

/-- Model of `JSON.parse` as a throwing operation (the thrown syntax error
is an `Except.error`). -/
def jsonParseE (s : String) : Except String Json :=
  match jsonParse s with
  | some v => .ok v
  | none => .error "SyntaxError"

/-- The parse-and-recover tail of `inferRelationshipsWithLLM` (lines
165–187): both `JSON.parse` attempts sit inside `try`/`catch`, the inner
fallback returning the empty result, so every path ends in `Except.ok`. -/
def parseLLMContentE (jsonText : String) : Except String LLMRelationshipResult :=
  let clean := cleanLLMText jsonText
  match jsonParseE clean with
  | .ok parsed => .ok (normaliseResult parsed)
  | .error _ =>
    match (match partialSearch clean.data with
           | some sub => jsonParseE (⟨sub⟩ : String)
           | none => .error "No valid JSON found") with
    | .ok parsed => .ok (normaliseResult parsed)
    | .error _ => .ok emptyLLMResult

/-- The enrichment parser as a total function. -/
def parseLLMContent (jsonText : String) : LLMRelationshipResult :=
  match parseLLMContentE jsonText with
  | .ok r => r
  | .error _ => emptyLLMResult

/-! ## Concrete repository fixtures used by the claim theorems -/

/-- The spec's `util.ts`: `export function helper(){}`. -/
def c1Util : RepoFile := { rel := "util.ts", parse := .ok [.funDecl "helper" true []] }

/-- The spec's `main.ts`: `import { helper } from './util'; helper();`. -/
def c1Main : RepoFile :=
  { rel := "main.ts",
    parse := .ok [.importDecl "./util" [.named "helper" "helper"], .topCall "helper"] }

/-- A file whose top-level call targets a locally declared, non-imported
function: `function f(){} f();`. -/
def c1Local : RepoFile := { rel := "loc.ts", parse := .ok [.funDecl "f" false [], .topCall "f"] }

/-- The statement list of the spec's `main.ts`. -/
def c1MainStmts : List Stmt :=
  [.importDecl "./util" [.named "helper" "helper"], .topCall "helper"]

/-- The call record `main.ts`'s traversal produces for the top-level
`helper()` call. -/
def c1MainCall : CallBinding :=
  { localName := "helper", imported := "helper", source := "./util",
    callerId := "main.ts::(module)" }

/-- A file whose import does not resolve but whose top-level call is
import-bound: `import { helper } from './missing'; helper();`. -/
def c4File : RepoFile :=
  { rel := "main.ts",
    parse := .ok [.importDecl "./missing" [.named "helper" "helper"], .topCall "helper"] }

/-- Fallback `FileAnalysis` for list projections in witnesses. -/
def emptyAnalysis : FileAnalysis := { path := "", imports := [], functions := [], calls := [] }

/-- Fallback `FunctionInfo` for list projections in witnesses. -/
def dummyFn : FunctionInfo :=
  { id := "", name := "", filePath := "", kind := .anonymous, isExported := false, incl := false }

/-- The static context of the unresolved-import fixture. -/
def c4Ctx : AnalysisCtx := staticAnalysisCtx [c4File] [] [c4File]

/-- The single file entry of that context. -/
def c4Entry : String × FileAnalysis := c4Ctx.files.getD 0 ("", emptyAnalysis)

/-- The module pseudo-record of that entry. -/
def c4Fn : FunctionInfo := c4Entry.2.functions.getD 0 dummyFn

/-- Two empty parsed files for the LLM file-edge fixture. -/
def c5A : RepoFile := { rel := "a.ts", parse := .ok [] }

/-- Companion file of the LLM file-edge fixture. -/
def c5B : RepoFile := { rel := "b.ts", parse := .ok [] }

/-- An LLM reply proposing one file edge labelled `calls`. -/
def c5LLM : LLMRelationshipResult :=
  { fileEdges := [{ source := "a.ts", target := "b.ts", relationship := "calls" }],
    functionEdges := [], notes := [] }

/-- A file with a non-exported, never-called local function. -/
def c6A : RepoFile := { rel := "a.ts", parse := .ok [.funDecl "localHelper" false []] }

/-- A file with an exported function. -/
def c6B : RepoFile := { rel := "b.ts", parse := .ok [.funDecl "g" true []] }

/-- An LLM reply proposing a function edge out of the non-exported local
function. -/
def c6LLM : LLMRelationshipResult :=
  { fileEdges := [],
    functionEdges := [{ source := { filePath := "a.ts", symbol := "localHelper" },
                        target := { filePath := "b.ts", symbol := "g" },
                        relationship := "calls", reason := some "r" }],
    notes := [] }

/-- Fallback edge-map entry for list projections in witnesses. -/
def dummyEdgeEntry : String × EdgeRecord :=
  ("", { source := "", target := "", kind := .imports, sourceType := .static,
         confidence := none, reason := none })

/-- The static context of the LLM file-edge fixture. -/
def c5Ctx : AnalysisCtx := staticAnalysisCtx [c5A, c5B] [] [c5A, c5B]

/-- That context after enrichment with the `calls`-labelled proposal. -/
def c5Enriched : AnalysisCtx := enrichRelationshipsWithLLM c5Ctx (some c5LLM)

/-- The single file edge the enrichment accepted. -/
def c5Edge : String × EdgeRecord := c5Enriched.fileEdges.getD 0 dummyEdgeEntry

/-- A function-edge proposal whose endpoints resolve nowhere. -/
def c6Probe : LLMRelationshipFunctionEdge :=
  { source := { filePath := "x.ts", symbol := "f" },
    target := { filePath := "y.ts", symbol := "g" },
    relationship := "calls" }

/-- An unsupported file (never parsed). -/
def c7Exe : RepoFile := { rel := "x.exe", parse := .failed "unsupported" }

/-- A clean JSON reply for the enrichment parser. -/
def c8Clean : String :=
  "\x7b\"fileEdges\": [\x7b\"source\": \"a.ts\", \"target\": \"b.ts\", \"relationship\": \"imports\", \"confidence\": \"high\"\x7d], \"functionEdges\": [], \"notes\": []\x7d"

/-- The same reply wrapped in a markdown fence and carrying trailing
commas. -/
def c8Fenced : String :=
  "```json\n\x7b\"fileEdges\": [\x7b\"source\": \"a.ts\", \"target\": \"b.ts\", \"relationship\": \"imports\", \"confidence\": \"high\"\x7d,], \"functionEdges\": [], \"notes\": [],\x7d\n```"

/-- An unrecoverably malformed reply. -/
def c8Garbage : String := "sorry, I cannot help with that"

/-- The parse both C8 replies are expected to produce. -/
def c8Expected : LLMRelationshipResult :=
  { fileEdges := [{ source := "a.ts", target := "b.ts", relationship := "imports",
                    confidence := some .high }],
    functionEdges := [], notes := [] }

/-- First file of the mutual-import fixture. -/
def c9A : RepoFile := { rel := "a.ts", parse := .ok [.importDecl "./b" [.named "x" "x"]] }

/-- Second file of the mutual-import fixture. -/
def c9B : RepoFile := { rel := "b.ts", parse := .ok [.importDecl "./a" [.named "y" "y"]] }

/-- A source file importing a JSON neighbour. -/
def c10A : RepoFile := { rel := "a.ts", parse := .ok [.importDecl "./b" [.named "x" "x"]] }

/-- The JSON neighbour (never parsed: `.json` is not a supported source
extension). -/
def c10B : RepoFile := { rel := "b.json", parse := .failed "json" }

/-- The static context of the JSON-import fixture (its parse targets are
just `a.ts`). -/
def c10Ctx : AnalysisCtx := staticAnalysisCtx [c10A, c10B] [] [c10A]

/-- The single static file edge of that context. -/
def c10Edge : String × EdgeRecord := c10Ctx.fileEdges.getD 0 dummyEdgeEntry

/-! ## Edge-operation wrapper (for the dedup/merge invariant) -/

/-- One edge-map insertion, as performed by the pipeline's three writers. -/
inductive EdgeOp
  | staticIns (src tgt : String)
  | llmFile (e : LLMRelationshipFileEdge)
  | llmFn (srcId tgtId : String) (kind : EdgeKind) (conf : Option Confidence)
      (reason : Option String)
  deriving Repr

/-- Application of one edge-map insertion. -/
def applyEdgeOp (m : EdgeMap) : EdgeOp → EdgeMap
  | .staticIns s t => staticEdgeUpsert m s t
  | .llmFile e => (llmFileEdgeApply m e).1
  | .llmFn s t k c r => (llmFunctionEdgeApply m s t k c r).1

/-- Application of a sequence of insertions to the empty map. -/
def applyEdgeOps (ops : List EdgeOp) : EdgeMap :=
  ops.foldl applyEdgeOp []

/-- Key distinctness of an edge map. -/
def keysNodup (m : EdgeMap) : Prop :=
  (m.map (·.1)).Nodup

/-- The include discipline of the static passes, as a property of a files
state: every exported record is included, and an included record is
exported or is the caller of one of its file's recorded calls. -/
def InclInv (files : List (String × FileAnalysis)) : Prop :=
  ∀ e ∈ files, ∀ fn ∈ e.2.functions,
    (fn.isExported = true → fn.incl = true)
    ∧ (fn.incl = true → fn.isExported = true
        ∨ fn.id ∈ e.2.calls.map (fun c => c.callerId))

/-- Every address stored in the export index points (in the given files
state) at an exported record. -/
def ExportsAgree (exports : List (String × (String × Nat)))
    (files : List (String × FileAnalysis)) : Prop :=
  ∀ p ∈ exports, ∀ e ∈ files, e.1 = p.2.1 →
    ∀ fn, e.2.functions.get? p.2.2 = some fn → fn.isExported = true

/-- A pre-existing static edge used when exercising the merge rules. -/
def c3Seed : EdgeRecord :=
  { source := "A", target := "B", kind := .imports, sourceType := .static,
    confidence := some .low }

/-! ## Theorems -/

set_option maxRecDepth 40000

instance {ε α : Type} [DecidableEq ε] [DecidableEq α] : DecidableEq (Except ε α) := fun x y =>
  match x, y with
  | .ok a, .ok b =>
    if h : a = b then isTrue (by rw [h]) else isFalse (fun hc => h (Except.ok.inj hc))
  | .error a, .error b =>
    if h : a = b then isTrue (by rw [h]) else isFalse (fun hc => h (Except.error.inj hc))
  | .ok _, .error _ => isFalse (fun hc => Except.noConfusion hc)
  | .error _, .ok _ => isFalse (fun hc => Except.noConfusion hc)

/-- Decomposition of a successful `List.find?`: the found element splits the
list, everything before it fails the predicate, and it satisfies it. -/
theorem find?_eq_some_split {α : Type _} {p : α → Bool} {l : List α} {a : α}
    (h : l.find? p = some a) :
    ∃ l1 l2, l = l1 ++ a :: l2 ∧ (∀ x ∈ l1, p x = false) ∧ p a = true := by
  induction l with
  | nil => simp at h
  | cons x xs ih =>
    cases hx : p x with
    | true =>
      rw [List.find?_cons_of_pos _ hx] at h
      cases h
      exact ⟨[], xs, rfl, by simp, hx⟩
    | false =>
      rw [List.find?_cons_of_neg _ (by simp [hx])] at h
      obtain ⟨l1, l2, rfl, h2, h3⟩ := ih h
      refine ⟨x :: l1, l2, rfl, ?_, h3⟩
      intro y hy
      rcases List.mem_cons.mp hy with rfl | hy
      · exact hx
      · exact h2 y hy

/-- C2 (confirmed): for every base path, candidate probing tries the base
literally, then the base with each import extension appended, then the base
with each index file appended, returning the first candidate present in the
known-file set; and resolving `./b` from `a/x.ts` over exactly
`a/b.ts`, `a/b/index.ts` returns `a/b.ts`. -/
theorem c2_resolver_probing :
    (resolveSpecifier ["a/b.ts", "a/b/index.ts"] [] "a/x.ts" "./b" = some "a/b.ts")
    ∧ ∀ (fileSet : List String) (base c : String), tryCandidates fileSet base = some c →
        fileSet.contains c = true ∧
        ∃ pre post, candidatesOf (backslashToSlash base) = pre ++ c :: post
          ∧ ∀ d ∈ pre, fileSet.contains d = false := by
  refine ⟨by decide, ?_⟩
  intro fileSet base c h
  unfold tryCandidates at h
  refine ⟨List.find?_some h, ?_⟩
  obtain ⟨l1, l2, he, h2, _⟩ := find?_eq_some_split h
  exact ⟨l1, l2, he, h2⟩

/-- Witness for C2 at the spec's concrete file set. -/
theorem c2_resolver_probing_witness :
    List.contains ["a/b.ts", "a/b/index.ts"] "a/b.ts" = true ∧
    ∃ pre post, candidatesOf (backslashToSlash "a/b") = pre ++ "a/b.ts" :: post
      ∧ ∀ d ∈ pre, List.contains ["a/b.ts", "a/b/index.ts"] d = false :=
  c2_resolver_probing.2 ["a/b.ts", "a/b/index.ts"] "a/b" "a/b.ts" (by decide)

/-- C7 counterexample: with no files at all the pipeline raises the
`RepoScannerError` of line 141 instead of returning an empty-but-valid
graph. -/
theorem c7_counterexample :
    analyzeRepositoryGraph "repo" [] [] [] none [] =
      Except.error "No files were found in the repository." := by
  decide

/-- C5 counterexample: an accepted LLM file edge labelled `calls` receives
kind `llm-reference`, not the `invokes` the claim's keyword rule
prescribes. -/
theorem c5_counterexample :
    ((analyzeRepositoryGraph "repo" [c5A, c5B] [] [] (some c5LLM) [c5A, c5B]).map
        (fun o => o.fileEdges.map (fun e => (e.sourceType, e.kind))))
      = .ok [(SourceType.llm, EdgeKind.llmReference)]
    ∧ EdgeKind.llmReference ≠ EdgeKind.invokes := by
  refine ⟨by decide, by decide⟩

/-- C6 counterexample: the deterministic run's function-node set is only
`b.ts::g`, yet the LLM proposal produces an accepted function edge whose
source `a.ts::localHelper` was not a node of that deterministic graph. -/
theorem c6_counterexample :
    ((analyzeRepositoryGraph "repo" [c6A, c6B] [] [] none [c6A, c6B]).map
        (fun o => o.functionNodes.map (·.id))) = .ok ["b.ts::g"]
    ∧ ((analyzeRepositoryGraph "repo" [c6A, c6B] [] [] (some c6LLM) [c6A, c6B]).map
        (fun o => o.functionEdges.map (·.source))) = .ok ["a.ts::localHelper"]
    ∧ "a.ts::localHelper" ∉ ["b.ts::g"] := by
  refine ⟨by decide, by decide, by decide⟩

/-- C9 counterexample: two completion orders of the parallel extraction
phase — both permutations of the parse targets — yield file-edge sequences
that are not byte-identical. -/
theorem c9_counterexample :
    ((analyzeRepositoryGraph "repo" [c9A, c9B] [] [] none [c9A, c9B]).map (·.fileEdges))
      ≠ ((analyzeRepositoryGraph "repo" [c9A, c9B] [] [] none [c9B, c9A]).map (·.fileEdges))
    ∧ [c9B, c9A].Perm (parseTargets [c9A, c9B]) := by
  refine ⟨by decide, by decide⟩

/-- C3 counterexample: a second LLM function-edge proposal onto an existing
key does not merely fill a missing `reason` — it appends to the one already
present, changing a non-missing field. -/
theorem c3_counterexample :
    mapGet (applyEdgeOp [] (.llmFn "A" "B" .invokes none (some "first"))) "A->B"
      = some { source := "A", target := "B", kind := .invokes, sourceType := .llm,
               confidence := none, reason := some "first" }
    ∧ mapGet (applyEdgeOp (applyEdgeOp [] (.llmFn "A" "B" .invokes none (some "first")))
        (.llmFn "A" "B" .invokes none (some "second"))) "A->B"
      = some { source := "A", target := "B", kind := .invokes, sourceType := .llm,
               confidence := none, reason := some "first second" } := by
  refine ⟨by decide, by decide⟩

/-- An option that is not `isSome` is `none`. -/
theorem eq_none_of_not_isSome {α : Type _} {o : Option α} (h : ¬ o.isSome = true) : o = none := by
  cases o with
  | none => rfl
  | some a => simp at h

/-- A found key's first occurrence is rewritten by the in-place update. -/
theorem find?_map_self {α : Type _} (m : List (String × α)) (k : String) (v : α)
    (h : (m.find? (fun p => p.1 == k)).isSome = true) :
    (m.map (fun p => if p.1 == k then (k, v) else p)).find? (fun p => p.1 == k)
      = some (k, v) := by
  induction m with
  | nil => simp at h
  | cons x xs ih =>
    by_cases hx : x.1 == k
    · have hfx : (if x.1 == k then (k, v) else x) = (k, v) := if_pos hx
      rw [List.map_cons, hfx, List.find?_cons]
      simp
    · have hx0 : (x.1 == k) = false := by simpa using hx
      have hfx : (if x.1 == k then (k, v) else x) = x := if_neg (by simp [hx0])
      rw [List.find?_cons] at h
      simp only [hx0] at h
      rw [List.map_cons, hfx, List.find?_cons]
      simp only [hx0]
      exact ih h

/-- An in-place update of one key is invisible to lookups of other keys. -/
theorem find?_map_other {α : Type _} (m : List (String × α)) (k2 k : String) (v : α)
    (hne : k2 ≠ k) :
    (m.map (fun p => if p.1 == k2 then (k2, v) else p)).find? (fun p => p.1 == k)
      = m.find? (fun p => p.1 == k) := by
  induction m with
  | nil => rfl
  | cons x xs ih =>
    by_cases hx : x.1 == k2
    · have hx1 : x.1 = k2 := by simpa using hx
      have h1 : (((k2, v) : String × α).1 == k) = false := by simpa using hne
      have h2 : (x.1 == k) = false := by rw [hx1]; simpa using hne
      have hfx : (if x.1 == k2 then (k2, v) else x) = (k2, v) := if_pos hx
      rw [List.map_cons, hfx, List.find?_cons, List.find?_cons]
      simp only [h1, h2]
      exact ih
    · have hfx : (if x.1 == k2 then (k2, v) else x) = x := if_neg (by simpa using hx)
      rw [List.map_cons, hfx, List.find?_cons, List.find?_cons]
      cases hxk : x.1 == k with
      | true => simp only [hxk]
      | false =>
        simp only [hxk]
        exact ih

/-- The value most recently `set` is the one `get` returns. -/
theorem mapGet_set_self {α : Type _} (m : List (String × α)) (k : String) (v : α) :
    mapGet (mapSet m k v) k = some v := by
  unfold mapGet mapSet
  by_cases h : (m.find? (fun p => p.1 == k)).isSome
  · simp only [h, if_true]
    rw [find?_map_self m k v h]
    rfl
  · have hn := eq_none_of_not_isSome h
    rw [hn]
    simp [List.find?_append, hn]

/-- Setting one key leaves every other key's value unchanged. -/
theorem mapGet_set_other {α : Type _} (m : List (String × α)) (k2 k : String) (v : α)
    (hne : k2 ≠ k) : mapGet (mapSet m k2 v) k = mapGet m k := by
  unfold mapGet mapSet
  by_cases h : (m.find? (fun p => p.1 == k2)).isSome
  · simp only [h, if_true]
    rw [find?_map_other m k2 k v hne]
  · have hn := eq_none_of_not_isSome h
    rw [hn]
    simp only [Option.isSome_none, Bool.false_eq_true, if_false, List.find?_append]
    cases hm : m.find? (fun p => p.1 == k) with
    | some p => simp
    | none => simpa using hne

/-- A key absent from a map's `find?` is absent from its key list. -/
theorem not_mem_keys_of_find?_none {α : Type _} {m : List (String × α)} {k : String}
    (h : m.find? (fun p => p.1 == k) = none) : k ∉ m.map (·.1) := by
  rw [List.find?_eq_none] at h
  intro hk
  obtain ⟨p, hp, hp1⟩ := List.mem_map.mp hk
  exact h p hp (by simp [hp1])

/-- The keys of a map after `set`: unchanged when the key was present,
extended by it otherwise. -/
theorem mapSet_keys {α : Type _} (m : List (String × α)) (k : String) (v : α) :
    (mapSet m k v).map (·.1) = m.map (·.1)
    ∨ ((mapSet m k v).map (·.1) = m.map (·.1) ++ [k] ∧ k ∉ m.map (·.1)) := by
  unfold mapSet
  by_cases h : (m.find? (fun p => p.1 == k)).isSome
  · left
    simp only [h, if_true]
    rw [List.map_map]
    apply List.map_congr_left
    intro x _
    by_cases hx : x.1 == k
    · have hx1 : x.1 = k := by simpa using hx
      simp [Function.comp, hx, hx1]
    · simp [Function.comp, hx]
  · right
    have hn := eq_none_of_not_isSome h
    rw [hn]
    simp only [Option.isSome_none, Bool.false_eq_true, if_false, List.map_append]
    exact ⟨rfl, not_mem_keys_of_find?_none hn⟩

/-- `set` preserves key distinctness. -/
theorem keysNodup_mapSet {α : Type _} (m : List (String × α)) (k : String) (v : α)
    (h : (m.map (·.1)).Nodup) : ((mapSet m k v).map (·.1)).Nodup := by
  rcases mapSet_keys m k v with heq | ⟨heq, hnm⟩
  · rw [heq]; exact h
  · rw [heq]
    simp [List.nodup_append, h, hnm]

/-- Every entry of a map after `set` is an old entry or the new one. -/
theorem mem_mapSet {α : Type _} {m : List (String × α)} {k : String} {v : α} {x : String × α}
    (hx : x ∈ mapSet m k v) : x ∈ m ∨ x = (k, v) := by
  unfold mapSet at hx
  by_cases h : (m.find? (fun p => p.1 == k)).isSome
  · simp only [h, if_true] at hx
    obtain ⟨p, hp, hpx⟩ := List.mem_map.mp hx
    by_cases hpk : p.1 == k
    · right; rw [← hpx]; simp [hpk]
    · left; rw [← hpx]; simpa [hpk] using hp
  · have hn := eq_none_of_not_isSome h
    rw [hn] at hx
    simp only [Option.isSome_none, Bool.false_eq_true, if_false, List.mem_append] at hx
    rcases hx with hx | hx
    · exact Or.inl hx
    · exact Or.inr (by simpa using hx)

/-- A successful `get` exhibits a map entry. -/
theorem mapGet_mem {α : Type _} {m : List (String × α)} {k : String} {v : α}
    (h : mapGet m k = some v) : (k, v) ∈ m := by
  unfold mapGet at h
  cases hf : m.find? (fun p => p.1 == k) with
  | none => rw [hf] at h; simp at h
  | some p =>
    rw [hf] at h
    have hp := List.find?_some hf
    have hmem := List.mem_of_find?_eq_some hf
    have h1 : p.1 = k := by simpa using hp
    have h2 : p.2 = v := by simpa using h
    have : p = (k, v) := Prod.ext h1 h2
    rwa [this] at hmem

/-- Entries of the specifier-lookup fold of an import declaration are old
entries or records of the new declaration's specifiers. -/
theorem mem_specs_foldl (src : String) (recs : List ImportSpecifierB) :
    ∀ (lk : List (String × (ImportSpecifierB × String)))
      (e : String × (ImportSpecifierB × String)),
      e ∈ recs.foldl (fun lk r => mapSet lk r.localName (r, src)) lk →
      e ∈ lk ∨ ∃ r ∈ recs, e = (r.localName, (r, src)) := by
  induction recs with
  | nil => intro lk e he; exact Or.inl he
  | cons r rest ih =>
    intro lk e he
    rw [List.foldl_cons] at he
    rcases ih _ e he with hin | ⟨r2, hr2, heq⟩
    · rcases mem_mapSet hin with h | h
      · exact Or.inl h
      · exact Or.inr ⟨r, List.mem_cons_self r rest, h⟩
    · exact Or.inr ⟨r2, List.mem_cons_of_mem _ hr2, heq⟩

/-- A successful `recordedSpec` exhibits the specifier-lookup entry and the
namespace guard. -/
theorem recordedSpec_mem (stmts : List Stmt) (st : TravState) (c : String)
    (sp : ImportSpecifierB) (src : String)
    (h : recordedSpec stmts st c = some (sp, src)) :
    (c, (sp, src)) ∈ st.specLookup ∧ sp.btype ≠ BindingType.namespaceB := by
  unfold recordedSpec at h
  by_cases hb : hasModuleBinding stmts c
  · rw [if_pos hb] at h
    cases hg : mapGet st.specLookup c with
    | none => rw [hg] at h; exact absurd h (by simp)
    | some pr =>
      obtain ⟨sp2, src2⟩ := pr
      rw [hg] at h
      dsimp only at h
      by_cases hns : sp2.btype = BindingType.namespaceB
      · rw [if_pos hns] at h
        exact absurd h (by simp)
      · rw [if_neg hns] at h
        obtain ⟨rfl, rfl⟩ : sp2 = sp ∧ src2 = src := by
          constructor <;> cases h <;> rfl
        exact ⟨mapGet_mem hg, hns⟩
  · rw [if_neg hb] at h
    exact absurd h (by simp)

/-- One traversal step preserves the invariant that every lookup entry comes
from a recorded import declaration (keyed by its local name) and every
recorded call is bound by a non-namespace import specifier. -/
theorem processStmt_import_bound (stmts : List Stmt) (relPath : String) (s : Stmt)
    (st : TravState)
    (h1 : ∀ e ∈ st.specLookup, ∃ ib ∈ st.imports, e.2.1 ∈ ib.specifiers ∧ e.2.1.localName = e.1)
    (h2 : ∀ cb ∈ st.calls, ∃ ib ∈ st.imports, ∃ sp ∈ ib.specifiers,
      sp.localName = cb.localName ∧ sp.btype ≠ BindingType.namespaceB) :
    (∀ e ∈ (processStmt stmts relPath st s).specLookup,
      ∃ ib ∈ (processStmt stmts relPath st s).imports,
        e.2.1 ∈ ib.specifiers ∧ e.2.1.localName = e.1)
    ∧ (∀ cb ∈ (processStmt stmts relPath st s).calls,
      ∃ ib ∈ (processStmt stmts relPath st s).imports, ∃ sp ∈ ib.specifiers,
        sp.localName = cb.localName ∧ sp.btype ≠ BindingType.namespaceB) := by
  cases s with
  | importDecl src specs =>
    constructor
    · intro e he
      simp only [processStmt] at he ⊢
      rcases mem_specs_foldl src (specs.map specAstToRecord) st.specLookup e he with hin | hnew
      · obtain ⟨ib, hib, hsp⟩ := h1 e hin
        exact ⟨ib, List.mem_append_left _ hib, hsp⟩
      · obtain ⟨r, hr, rfl⟩ := hnew
        refine ⟨{ source := src, specifiers := specs.map specAstToRecord },
          List.mem_append_right _ (by simp), hr, rfl⟩
    · intro cb hcb
      simp only [processStmt] at hcb ⊢
      obtain ⟨ib, hib, sp, hsp, hl⟩ := h2 cb hcb
      exact ⟨ib, List.mem_append_left _ hib, sp, hsp, hl⟩
  | funDecl name e bodyCalls =>
    simp only [processStmt]
    have key : ∀ (calls : List String) (st2 : TravState) (idx : Nat),
        st2.specLookup = st.specLookup → st2.imports = st.imports →
        (∀ cb ∈ st2.calls, ∃ ib ∈ st.imports, ∃ sp ∈ ib.specifiers,
          sp.localName = cb.localName ∧ sp.btype ≠ BindingType.namespaceB) →
        (calls.foldl (processBodyCall stmts idx) st2).specLookup = st.specLookup
        ∧ (calls.foldl (processBodyCall stmts idx) st2).imports = st.imports
        ∧ (∀ cb ∈ (calls.foldl (processBodyCall stmts idx) st2).calls,
            ∃ ib ∈ st.imports, ∃ sp ∈ ib.specifiers,
              sp.localName = cb.localName ∧ sp.btype ≠ BindingType.namespaceB) := by
      intro calls
      induction calls with
      | nil => intro st2 idx hl hi hc; exact ⟨hl, hi, hc⟩
      | cons c rest ih =>
        intro st2 idx hl hi hc
        rw [List.foldl_cons]
        apply ih
        · unfold processBodyCall
          cases hr : recordedSpec stmts st2 c with
          | none => exact hl
          | some pr => exact hl
        · unfold processBodyCall
          cases hr : recordedSpec stmts st2 c with
          | none => exact hi
          | some pr => exact hi
        · unfold processBodyCall
          cases hr : recordedSpec stmts st2 c with
          | none => exact hc
          | some pr =>
            obtain ⟨sp, src⟩ := pr
            intro cb hcb
            simp only [List.mem_append, List.mem_singleton] at hcb
            rcases hcb with hcb | rfl
            · exact hc cb hcb
            · have hm := recordedSpec_mem stmts st2 c sp src hr
              have := h1 (c, (sp, src)) (hl ▸ hm.1)
              obtain ⟨ib, hib, hsp, hln⟩ := this
              exact ⟨ib, hib, sp, hsp, rfl, hm.2⟩
    obtain ⟨hL, hI, hC⟩ := key bodyCalls
      { st with functions := registeredFuns relPath name e st.functions }
      ((registeredFuns relPath name e st.functions).length - 1) rfl rfl h2
    refine ⟨?_, ?_⟩
    · rw [hL, hI]
      exact h1
    · intro cb hcb
      obtain ⟨ib, hib, sp, hsp, hln, hns⟩ := hC cb hcb
      exact ⟨ib, hI.symm ▸ hib, sp, hsp, hln, hns⟩
  | topCall c =>
    simp only [processStmt]
    unfold processTopCall
    cases hr : recordedSpec stmts st c with
    | none => exact ⟨h1, h2⟩
    | some pr =>
      obtain ⟨sp, src⟩ := pr
      unfold ensureModuleInvoker
      cases st.moduleInvokerIdx with
      | some i =>
        refine ⟨h1, ?_⟩
        intro cb hcb
        simp only [List.mem_append, List.mem_singleton] at hcb
        rcases hcb with hcb | rfl
        · exact h2 cb hcb
        · have hm := recordedSpec_mem stmts st c sp src hr
          obtain ⟨ib, hib, hsp, hln⟩ := h1 (c, (sp, src)) hm.1
          exact ⟨ib, hib, sp, hsp, rfl, hm.2⟩
      | none =>
        refine ⟨h1, ?_⟩
        intro cb hcb
        simp only [List.mem_append, List.mem_singleton] at hcb
        rcases hcb with hcb | rfl
        · exact h2 cb hcb
        · have hm := recordedSpec_mem stmts st c sp src hr
          obtain ⟨ib, hib, hsp, hln⟩ := h1 (c, (sp, src)) hm.1
          exact ⟨ib, hib, sp, hsp, rfl, hm.2⟩

/-- Every call recorded by a full `analyzeFile` traversal is bound by a
non-namespace specifier of one of the file's recorded import declarations:
a locally declared callee never yields a call record. -/
theorem analyzeFile_calls_import_bound (relPath : String) (stmts : List Stmt) :
    ∀ cb ∈ (analyzeFile relPath stmts).calls,
      ∃ ib ∈ (analyzeFile relPath stmts).imports, ∃ sp ∈ ib.specifiers,
        sp.localName = cb.localName ∧ sp.btype ≠ BindingType.namespaceB := by
  have key : ∀ (ss : List Stmt) (st : TravState),
      (∀ e ∈ st.specLookup, ∃ ib ∈ st.imports, e.2.1 ∈ ib.specifiers ∧ e.2.1.localName = e.1) →
      (∀ cb ∈ st.calls, ∃ ib ∈ st.imports, ∃ sp ∈ ib.specifiers,
        sp.localName = cb.localName ∧ sp.btype ≠ BindingType.namespaceB) →
      (∀ e ∈ (ss.foldl (processStmt stmts relPath) st).specLookup,
        ∃ ib ∈ (ss.foldl (processStmt stmts relPath) st).imports,
          e.2.1 ∈ ib.specifiers ∧ e.2.1.localName = e.1)
      ∧ (∀ cb ∈ (ss.foldl (processStmt stmts relPath) st).calls,
        ∃ ib ∈ (ss.foldl (processStmt stmts relPath) st).imports, ∃ sp ∈ ib.specifiers,
          sp.localName = cb.localName ∧ sp.btype ≠ BindingType.namespaceB) := by
    intro ss
    induction ss with
    | nil => intro st h1 h2; exact ⟨h1, h2⟩
    | cons s rest ih =>
      intro st h1 h2
      rw [List.foldl_cons]
      obtain ⟨g1, g2⟩ := processStmt_import_bound stmts relPath s st h1 h2
      exact ih _ g1 g2
  intro cb hcb
  simp only [analyzeFile] at hcb ⊢
  have h := key stmts TravState.init
    (by intro x hx; simp [TravState.init] at hx)
    (by intro x hx; simp [TravState.init] at hx)
  exact h.2 cb hcb

/-- `get?` after `set` at the written (in-range) index. -/
theorem get?_set_self {α : Type _} (l : List α) (i : Nat) (b a : α) (h : l.get? i = some a) :
    (l.set i b).get? i = some b := by
  induction l generalizing i with
  | nil => simp at h
  | cons x xs ih =>
    cases i with
    | zero => rfl
    | succ n =>
      simp only [List.get?_cons_succ] at h
      simp only [List.set_cons_succ, List.get?_cons_succ]
      exact ih n h

/-- `get?` after `set` at another index. -/
theorem get?_set_ne {α : Type _} (l : List α) (i j : Nat) (b : α) (h : i ≠ j) :
    (l.set i b).get? j = l.get? j := by
  induction l generalizing i j with
  | nil => rfl
  | cons x xs ih =>
    cases i with
    | zero =>
      cases j with
      | zero => exact absurd rfl h
      | succ m => rfl
    | succ n =>
      cases j with
      | zero => rfl
      | succ m =>
        simp only [List.set_cons_succ, List.get?_cons_succ]
        exact ih n m (by omega)

/-- Replacing an element by one with the same image leaves the mapped list
unchanged. -/
theorem map_set_eq_of_get? {α β : Type _} (l : List α) (i : Nat) (a b : α) (f : α → β)
    (h : l.get? i = some a) (hf : f b = f a) : (l.set i b).map f = l.map f := by
  induction l generalizing i with
  | nil => rfl
  | cons x xs ih =>
    cases i with
    | zero =>
      simp only [List.get?_cons_zero, Option.some.injEq] at h
      subst h
      simp [hf]
    | succ n =>
      simp only [List.get?_cons_succ] at h
      simp only [List.set_cons_succ, List.map_cons]
      rw [ih n h]

/-- `findIdx?` (with arbitrary start offset) exhibits a satisfying element at
the found position. -/
theorem findIdx?_spec {α : Type _} (p : α → Bool) :
    ∀ (l : List α) (i0 j : Nat), l.findIdx? p i0 = some j →
      i0 ≤ j ∧ ∃ a, l.get? (j - i0) = some a ∧ p a = true := by
  intro l
  induction l with
  | nil => intro i0 j h; simp [List.findIdx?] at h
  | cons x xs ih =>
    intro i0 j h
    rw [List.findIdx?_cons] at h
    by_cases hp : p x
    · rw [if_pos hp] at h
      cases h
      exact ⟨Nat.le_refl _, x, by simp, hp⟩
    · rw [if_neg hp] at h
      obtain ⟨hle, a, hget, hpa⟩ := ih (i0 + 1) j h
      refine ⟨by omega, a, ?_, hpa⟩
      have hji : j - i0 = (j - (i0 + 1)) + 1 := by omega
      rw [hji]
      simpa using hget

/-- With distinct keys, every map entry is the one `get` finds. -/
theorem mapGet_of_mem_nodup {α : Type _} {m : List (String × α)}
    (hnd : (m.map (·.1)).Nodup) {e : String × α} (he : e ∈ m) : mapGet m e.1 = some e.2 := by
  induction m with
  | nil => simp at he
  | cons x xs ih =>
    rw [List.map_cons, List.nodup_cons] at hnd
    rcases List.mem_cons.mp he with rfl | he'
    · unfold mapGet
      rw [List.find?_cons]
      simp
    · unfold mapGet
      rw [List.find?_cons]
      have hne : (x.1 == e.1) = false := by
        by_contra hc
        have hx1 : x.1 = e.1 := by
          have := Bool.of_not_eq_false hc
          simpa using this
        exact hnd.1 (hx1 ▸ List.mem_map.mpr ⟨e, he', rfl⟩)
      simp only [hne]
      exact ih hnd.2 he'

/-- A fold preserves any invariant its step preserves. -/
theorem foldl_inv {σ α : Type _} (P : σ → Prop) (f : σ → α → σ)
    (hstep : ∀ s a, P s → P (f s a)) :
    ∀ (l : List α) (s : σ), P s → P (l.foldl f s) := by
  intro l
  induction l with
  | nil => intro s h; exact h
  | cons x xs ih =>
    intro s h
    rw [List.foldl_cons]
    exact ih _ (hstep s x h)

/-- `updateFnAt` preserves the key sequence. -/
theorem updateFnAt_keys (files : List (String × FileAnalysis)) (r : String) (i : Nat)
    (g : FunctionInfo → FunctionInfo) :
    (updateFnAt files r i g).map (fun e => e.1) = files.map (fun e => e.1) := by
  unfold updateFnAt
  rw [List.map_map]
  apply List.map_congr_left
  intro e _
  by_cases h : e.1 == r
  · rw [Function.comp_apply, if_pos h]
  · rw [Function.comp_apply, if_neg h]

/-- `updateCallAt` preserves the key sequence. -/
theorem updateCallAt_keys (files : List (String × FileAnalysis)) (r : String) (i : Nat)
    (g : CallBinding → CallBinding) :
    (updateCallAt files r i g).map (fun e => e.1) = files.map (fun e => e.1) := by
  unfold updateCallAt
  rw [List.map_map]
  apply List.map_congr_left
  intro e _
  by_cases h : e.1 == r
  · rw [Function.comp_apply, if_pos h]
  · rw [Function.comp_apply, if_neg h]

/-- Shape of an entry after `updateFnAt`: key, calls and imports are those of
an input entry, functions either untouched or with one record rewritten in
place. -/
theorem mem_updateFnAt {files : List (String × FileAnalysis)} {r : String} {i : Nat}
    {g : FunctionInfo → FunctionInfo} {e' : String × FileAnalysis}
    (h : e' ∈ updateFnAt files r i g) :
    ∃ e ∈ files, e'.1 = e.1 ∧ e'.2.calls = e.2.calls ∧ e'.2.imports = e.2.imports ∧
      (e'.2.functions = e.2.functions
        ∨ (e.1 = r ∧ ∃ fn0, e.2.functions.get? i = some fn0
            ∧ e'.2.functions = e.2.functions.set i (g fn0))) := by
  unfold updateFnAt at h
  obtain ⟨e, he, heq⟩ := List.mem_map.mp h
  dsimp only at heq
  refine ⟨e, he, ?_⟩
  by_cases hk : e.1 == r
  · rw [if_pos hk] at heq
    cases hg : e.2.functions.get? i with
    | none =>
      rw [hg] at heq
      subst heq
      exact ⟨rfl, rfl, rfl, Or.inl rfl⟩
    | some fn0 =>
      rw [hg] at heq
      subst heq
      exact ⟨rfl, rfl, rfl, Or.inr ⟨by simpa using hk, fn0, rfl, rfl⟩⟩
  · rw [if_neg hk] at heq
    subst heq
    exact ⟨rfl, rfl, rfl, Or.inl rfl⟩

/-- Shape of an entry after `updateCallAt`. -/
theorem mem_updateCallAt {files : List (String × FileAnalysis)} {r : String} {i : Nat}
    {g : CallBinding → CallBinding} {e' : String × FileAnalysis}
    (h : e' ∈ updateCallAt files r i g) :
    ∃ e ∈ files, e'.1 = e.1 ∧ e'.2.functions = e.2.functions ∧ e'.2.imports = e.2.imports ∧
      (e'.2.calls = e.2.calls
        ∨ (e.1 = r ∧ ∃ c0, e.2.calls.get? i = some c0
            ∧ e'.2.calls = e.2.calls.set i (g c0))) := by
  unfold updateCallAt at h
  obtain ⟨e, he, heq⟩ := List.mem_map.mp h
  dsimp only at heq
  refine ⟨e, he, ?_⟩
  by_cases hk : e.1 == r
  · rw [if_pos hk] at heq
    cases hg : e.2.calls.get? i with
    | none =>
      rw [hg] at heq
      subst heq
      exact ⟨rfl, rfl, rfl, Or.inl rfl⟩
    | some c0 =>
      rw [hg] at heq
      subst heq
      exact ⟨rfl, rfl, rfl, Or.inr ⟨by simpa using hk, c0, rfl, rfl⟩⟩
  · rw [if_neg hk] at heq
    subst heq
    exact ⟨rfl, rfl, rfl, Or.inl rfl⟩

/-- Marking a record included preserves the include discipline provided the
addressed record is already exported or a recorded caller. -/
theorem inclInv_updateFnAt {files : List (String × FileAnalysis)} {r : String} {i : Nat}
    (hQ : InclInv files)
    (hj : ∀ e ∈ files, e.1 = r → ∀ fn, e.2.functions.get? i = some fn →
      fn.isExported = true ∨ fn.id ∈ e.2.calls.map (fun c => c.callerId)) :
    InclInv (updateFnAt files r i (fun fn => { fn with incl := true })) := by
  intro e' he' fn' hfn'
  obtain ⟨e, he, hk, hcalls, him, hfns⟩ := mem_updateFnAt he'
  rw [hcalls]
  cases hfns with
  | inl hsame =>
    rw [hsame] at hfn'
    exact hQ e he fn' hfn'
  | inr h0 =>
    obtain ⟨hkr, fn0, hg0, hset⟩ := h0
    rw [hset] at hfn'
    rcases List.mem_or_eq_of_mem_set hfn' with hmem | rfl
    · exact hQ e he fn' hmem
    · exact ⟨fun _ => rfl, fun _ => hj e he hkr fn0 hg0⟩

/-- Stamping a call record's `resolved` field preserves the include
discipline: caller ids are untouched. -/
theorem inclInv_updateCallAt {files : List (String × FileAnalysis)} {r : String} {i : Nat}
    {res : String} (hQ : InclInv files) :
    InclInv (updateCallAt files r i (fun c => { c with resolved := some res })) := by
  intro e' he' fn hfn
  obtain ⟨e, he, hk, hfns, him, hcalls⟩ := mem_updateCallAt he'
  rw [hfns] at hfn
  have hQe := hQ e he fn hfn
  refine ⟨hQe.1, fun hincl => ?_⟩
  rcases hQe.2 hincl with hex | hmem
  · exact Or.inl hex
  · right
    cases hcalls with
    | inl hsame =>
      rw [hsame]
      exact hmem
    | inr h0 =>
      obtain ⟨hkr, c0, hg0, hset⟩ := h0
      rw [hset, map_set_eq_of_get? e.2.calls i c0 { c0 with resolved := some res }
        (fun c => c.callerId) hg0 rfl]
      exact hmem

/-- Marking a record included does not change which addresses are
exported. -/
theorem exportsAgree_updateFnAt {exports : List (String × (String × Nat))}
    {files : List (String × FileAnalysis)} {r : String} {i : Nat}
    (hE : ExportsAgree exports files) :
    ExportsAgree exports (updateFnAt files r i (fun fn => { fn with incl := true })) := by
  intro p hp e' he' hk fn hfn
  obtain ⟨e, he, hk1, _, _, hfns⟩ := mem_updateFnAt he'
  rw [hk1] at hk
  cases hfns with
  | inl hsame =>
    rw [hsame] at hfn
    exact hE p hp e he hk fn hfn
  | inr h0 =>
    obtain ⟨hkr, fn0, hg0, hset⟩ := h0
    rw [hset] at hfn
    by_cases hij : i = p.2.2
    · subst hij
      rw [get?_set_self _ _ _ fn0 hg0] at hfn
      injection hfn with hfn2
      subst hfn2
      exact hE p hp e he hk fn0 hg0
    · rw [get?_set_ne _ _ _ _ hij] at hfn
      exact hE p hp e he hk fn hfn

/-- A call-record update does not change which addresses are exported. -/
theorem exportsAgree_updateCallAt {exports : List (String × (String × Nat))}
    {files : List (String × FileAnalysis)} {r : String} {i : Nat}
    {g : CallBinding → CallBinding} (hE : ExportsAgree exports files) :
    ExportsAgree exports (updateCallAt files r i g) := by
  intro p hp e' he' hk fn hfn
  obtain ⟨e, he, hk1, hfns, _, _⟩ := mem_updateCallAt he'
  rw [hk1] at hk
  rw [hfns] at hfn
  exact hE p hp e he hk fn hfn

/-- One traversal step preserves the include discipline on the state:
exported records are included, included records are exported or callers of
a recorded call. -/
theorem processStmt_incl_inv (stmts : List Stmt) (relPath : String) (s : Stmt)
    (st : TravState)
    (h : ∀ fn ∈ st.functions, (fn.isExported = true → fn.incl = true)
      ∧ (fn.incl = true → fn.isExported = true
          ∨ fn.id ∈ st.calls.map (fun c => c.callerId))) :
    ∀ fn ∈ (processStmt stmts relPath st s).functions,
      (fn.isExported = true → fn.incl = true)
      ∧ (fn.incl = true → fn.isExported = true
          ∨ fn.id ∈ (processStmt stmts relPath st s).calls.map (fun c => c.callerId)) := by
  cases s with
  | importDecl src specs =>
    simp only [processStmt]
    exact h
  | topCall c =>
    simp only [processStmt]
    unfold processTopCall
    cases hr : recordedSpec stmts st c with
    | none => exact h
    | some pr =>
      obtain ⟨sp, src⟩ := pr
      unfold ensureModuleInvoker
      cases st.moduleInvokerIdx with
      | some i =>
        intro fn hfn
        refine ⟨(h fn hfn).1, fun hincl => ?_⟩
        rcases (h fn hfn).2 hincl with hex | hmem
        · exact Or.inl hex
        · right
          rw [List.map_append]
          exact List.mem_append_left _ hmem
      | none =>
        intro fn hfn
        rcases List.mem_append.mp hfn with hfn | hfn
        · refine ⟨(h fn hfn).1, fun hincl => ?_⟩
          rcases (h fn hfn).2 hincl with hex | hmem
          · exact Or.inl hex
          · right
            rw [List.map_append]
            exact List.mem_append_left _ hmem
        · rw [List.mem_singleton] at hfn
          subst hfn
          refine ⟨fun _ => rfl, fun _ => Or.inr ?_⟩
          rw [List.map_append]
          apply List.mem_append_right
          simp
  | funDecl name e bodyCalls =>
    simp only [processStmt]
    have key : ∀ (calls : List String) (st2 : TravState) (idx : Nat),
        (∀ fn ∈ st2.functions, (fn.isExported = true → fn.incl = true)
          ∧ (fn.incl = true → fn.isExported = true
              ∨ fn.id ∈ st2.calls.map (fun c => c.callerId))) →
        ∀ fn ∈ (calls.foldl (processBodyCall stmts idx) st2).functions,
          (fn.isExported = true → fn.incl = true)
          ∧ (fn.incl = true → fn.isExported = true
              ∨ fn.id ∈ (calls.foldl (processBodyCall stmts idx) st2).calls.map
                  (fun c => c.callerId)) := by
      intro calls
      induction calls with
      | nil => intro st2 idx hI; exact hI
      | cons c rest ih =>
        intro st2 idx hI
        rw [List.foldl_cons]
        apply ih
        unfold processBodyCall
        cases hr : recordedSpec stmts st2 c with
        | none => exact hI
        | some pr =>
          obtain ⟨sp, src⟩ := pr
          intro fn hfn
          unfold setInclAt at hfn
          cases hg : st2.functions.get? idx with
          | none =>
            rw [hg] at hfn
            dsimp only at hfn
            refine ⟨(hI fn hfn).1, fun hincl => ?_⟩
            rcases (hI fn hfn).2 hincl with hex | hmem
            · exact Or.inl hex
            · right
              rw [List.map_append]
              exact List.mem_append_left _ hmem
          | some fnI =>
            rw [hg] at hfn
            dsimp only at hfn
            rcases List.mem_or_eq_of_mem_set hfn with hmem0 | rfl
            · refine ⟨(hI fn hmem0).1, fun hincl => ?_⟩
              rcases (hI fn hmem0).2 hincl with hex | hmem
              · exact Or.inl hex
              · right
                rw [List.map_append]
                exact List.mem_append_left _ hmem
            · refine ⟨fun _ => rfl, fun _ => Or.inr ?_⟩
              rw [List.map_append]
              apply List.mem_append_right
              simp [hg]
    apply key bodyCalls
    intro fn hfn
    unfold registeredFuns at hfn
    cases e with
    | true =>
      rw [if_pos rfl] at hfn
      rcases List.mem_append.mp hfn with hfn | hfn
      · exact h fn hfn
      · have : fn = funDeclInfo relPath name true := by
          rcases List.mem_cons.mp hfn with h1 | h1
          · exact h1
          · simpa using h1
        subst this
        exact ⟨fun _ => rfl, fun _ => Or.inl rfl⟩
    | false =>
      rw [if_neg (by simp)] at hfn
      rcases List.mem_append.mp hfn with hfn | hfn
      · exact h fn hfn
      · rw [List.mem_singleton] at hfn
        subst hfn
        exact ⟨fun hex => absurd hex (by simp [funDeclInfo]),
          fun hincl => absurd hincl (by simp [funDeclInfo])⟩

/-- The include discipline of a full `analyzeFile` traversal. -/
theorem analyzeFile_incl_inv (relPath : String) (stmts : List Stmt) :
    ∀ fn ∈ (analyzeFile relPath stmts).functions,
      (fn.isExported = true → fn.incl = true)
      ∧ (fn.incl = true → fn.isExported = true
          ∨ fn.id ∈ (analyzeFile relPath stmts).calls.map (fun c => c.callerId)) := by
  intro fn hfn
  simp only [analyzeFile] at hfn ⊢
  have hinv := foldl_inv
    (fun st : TravState => ∀ fn ∈ st.functions, (fn.isExported = true → fn.incl = true)
      ∧ (fn.incl = true → fn.isExported = true
          ∨ fn.id ∈ st.calls.map (fun c => c.callerId)))
    (processStmt stmts relPath)
    (fun st s hP => processStmt_incl_inv stmts relPath s st hP)
    stmts TravState.init
    (by intro fn hfn; simp [TravState.init] at hfn)
  exact hinv fn hfn

/-- An element of `enumFrom` is the list element at its recorded offset. -/
theorem get?_of_mem_enumFrom {α : Type _} :
    ∀ (l : List α) (n : Nat) (q : Nat × α), q ∈ l.enumFrom n →
      n ≤ q.1 ∧ l.get? (q.1 - n) = some q.2 := by
  intro l
  induction l with
  | nil => intro n q h; simp at h
  | cons x xs ih =>
    intro n q h
    rw [List.enumFrom_cons] at h
    rcases List.mem_cons.mp h with rfl | h'
    · exact ⟨Nat.le_refl _, by simp⟩
    · obtain ⟨hle, hget⟩ := ih (n + 1) q h'
      refine ⟨by omega, ?_⟩
      have hq : q.1 - n = (q.1 - (n + 1)) + 1 := by omega
      rw [hq]
      simpa using hget

/-- An element of `enum` is the list element at its recorded index. -/
theorem get?_of_mem_enum {α : Type _} (l : List α) (q : Nat × α) (h : q ∈ l.enum) :
    l.get? q.1 = some q.2 := by
  have := get?_of_mem_enumFrom l 0 q h
  simpa using this.2

/-- Entries of the extraction phase are traversal results keyed by relative
path, with distinct keys. -/
theorem extractFiles_entries (arrival : List RepoFile) :
    ((extractFiles arrival).1.map (fun e => e.1)).Nodup
    ∧ ∀ e ∈ (extractFiles arrival).1, ∃ r stmts, e = (r, analyzeFile r stmts) := by
  unfold extractFiles
  refine foldl_inv
    (fun s : List (String × FileAnalysis) × List String =>
      (s.1.map (fun e => e.1)).Nodup
      ∧ ∀ e ∈ s.1, ∃ r stmts, e = (r, analyzeFile r stmts))
    extractStep ?_ arrival ([], []) ⟨by simp, by simp⟩
  rintro s f ⟨hnd, hsh⟩
  unfold extractStep
  cases hp : f.parse with
  | ok stmts =>
    refine ⟨keysNodup_mapSet _ _ _ hnd, ?_⟩
    intro e he
    rcases mem_mapSet he with h | h
    · exact hsh e h
    · exact ⟨f.rel, stmts, h⟩
  | failed msg => exact ⟨hnd, hsh⟩

/-- The outer fold of `resolveImports` preserves the key sequence and only
rewrites the `imports` field of each entry. -/
theorem resolveFilesStep_foldl (resolver : String → String → Option String) :
    ∀ (l : List (String × FileAnalysis)) (s : ResolveAcc × List (String × FileAnalysis)),
      ((l.foldl (resolveFilesStep resolver) s).2.map (fun e => e.1)
          = s.2.map (fun e => e.1) ++ l.map (fun e => e.1))
      ∧ ∀ e' ∈ (l.foldl (resolveFilesStep resolver) s).2,
          e' ∈ s.2 ∨ ∃ e ∈ l, e'.1 = e.1 ∧ e'.2.functions = e.2.functions
            ∧ e'.2.calls = e.2.calls := by
  intro l
  induction l with
  | nil =>
    intro s
    exact ⟨by simp, fun e' he' => Or.inl he'⟩
  | cons x xs ih =>
    intro s
    rw [List.foldl_cons]
    obtain ⟨hk, hm⟩ := ih (resolveFilesStep resolver s x)
    constructor
    · rw [hk]
      have hone : (resolveFilesStep resolver s x).2.map (fun e => e.1)
          = s.2.map (fun e => e.1) ++ [x.1] := by
        simp [resolveFilesStep]
      rw [hone]
      simp
    · intro e' he'
      rcases hm e' he' with h | h
      · simp only [resolveFilesStep, List.mem_append] at h
        rcases h with h | h
        · exact Or.inl h
        · rw [List.mem_singleton] at h
          subst h
          exact Or.inr ⟨x, List.mem_cons_self x xs, rfl, rfl, rfl⟩
      · obtain ⟨e, hel, h1, h2, h3⟩ := h
        exact Or.inr ⟨e, List.mem_cons_of_mem x hel, h1, h2, h3⟩

/-- `resolveImports` preserves the key sequence and each entry's functions
and calls. -/
theorem resolveImports_shape (resolver : String → String → Option String) (ctx : AnalysisCtx) :
    ((resolveImports resolver ctx).files.map (fun e => e.1) = ctx.files.map (fun e => e.1))
    ∧ ∀ e' ∈ (resolveImports resolver ctx).files, ∃ e ∈ ctx.files,
        e'.1 = e.1 ∧ e'.2.functions = e.2.functions ∧ e'.2.calls = e.2.calls := by
  unfold resolveImports
  obtain ⟨hk, hm⟩ := resolveFilesStep_foldl resolver ctx.files (⟨ctx.fileEdges, ctx.unresolved⟩, [])
  constructor
  · dsimp only
    rw [hk]
    simp
  · intro e' he'
    dsimp only at he'
    rcases hm e' he' with h | h
    · simp at h
    · exact h

/-- Every address of the export index points at an exported record of the
files state it was computed from. -/
theorem collectFunctionExports_agree (files : List (String × FileAnalysis))
    (hnd : (files.map (fun e => e.1)).Nodup) :
    ExportsAgree (collectFunctionExports files) files := by
  unfold collectFunctionExports
  have inner : ∀ (entry : String × FileAnalysis), entry ∈ files →
      ∀ (ps : List (Nat × FunctionInfo)), (∀ q ∈ ps, q ∈ entry.2.functions.enum) →
      ∀ m, ExportsAgree m files → ExportsAgree (ps.foldl (exportIndexEntry entry.1) m) files := by
    intro entry hentry ps
    induction ps with
    | nil => intro _ m hm; exact hm
    | cons q qs ih =>
      intro hqs m hm
      rw [List.foldl_cons]
      apply ih (fun q' hq' => hqs q' (List.mem_cons_of_mem q hq'))
      unfold exportIndexEntry
      by_cases hq : q.2.isExported && jsTruthyStr q.2.exportName
      · rw [if_pos hq]
        intro p hp e he hke fn hgf
        rcases mem_mapSet hp with h | h
        · exact hm p h e he hke fn hgf
        · subst h
          have hgq := get?_of_mem_enum entry.2.functions q (hqs q (List.mem_cons_self q qs))
          have hme : mapGet files e.1 = some e.2 := mapGet_of_mem_nodup hnd he
          have hmentry : mapGet files entry.1 = some entry.2 := mapGet_of_mem_nodup hnd hentry
          rw [hke] at hme
          rw [hme] at hmentry
          have he2 : entry.2 = e.2 := by
            injection hmentry with h
            exact h.symm
          rw [← he2] at hgf
          rw [hgq] at hgf
          have hfn : fn = q.2 := by injection hgf with h; exact h.symm
          subst hfn
          exact (Bool.and_elim_left hq)
      · rw [if_neg hq]
        exact hm
  have outer : ∀ (l : List (String × FileAnalysis)), (∀ x ∈ l, x ∈ files) →
      ∀ m, ExportsAgree m files → ExportsAgree (l.foldl collectFunctionExportsFile m) files := by
    intro l
    induction l with
    | nil => intro _ m hm; exact hm
    | cons x xs ih =>
      intro hl m hm
      rw [List.foldl_cons]
      apply ih (fun x' hx' => hl x' (List.mem_cons_of_mem x hx'))
      unfold collectFunctionExportsFile
      exact inner x (hl x (List.mem_cons_self x xs)) _ (fun q hq => hq) m hm
  exact outer files (fun x hx => hx) [] (by intro p hp; simp at hp)

/-- One resolved call of `collectFunctionEdges` preserves the key sequence,
the include discipline and the export index agreement. -/
theorem processResolvedCall_inv (exports : List (String × (String × Nat))) (rel : String)
    (specMap : List (String × ImportSpecifierB)) (s : FnEdgeState) (ci : Nat)
    (hnd : (s.files.map (fun e => e.1)).Nodup)
    (hQ : InclInv s.files) (hE : ExportsAgree exports s.files) :
    (processResolvedCall exports rel specMap s ci).files.map (fun e => e.1)
        = s.files.map (fun e => e.1)
    ∧ InclInv (processResolvedCall exports rel specMap s ci).files
    ∧ ExportsAgree exports (processResolvedCall exports rel specMap s ci).files := by
  unfold processResolvedCall
  cases h1 : (mapGet s.files rel).bind (fun fa => fa.calls.get? ci) with
  | none => exact ⟨rfl, hQ, hE⟩
  | some call =>
    dsimp only
    cases h2 : mapGet specMap call.localName with
    | none => exact ⟨rfl, hQ, hE⟩
    | some sp =>
      dsimp only
      cases h3 : sp.resolved with
      | none => exact ⟨rfl, hQ, hE⟩
      | some res =>
        dsimp only
        cases h4 : (match mapGet exports (res ++ ":" ++ sp.imported) with
            | some t => some t
            | none => mapGet exports (res ++ ":default")) with
        | none => exact ⟨rfl, hQ, hE⟩
        | some tAddr =>
          dsimp only
          cases h5 : (mapGet s.files rel).bind
              (fun fa => fa.functions.findIdx? (fun fn => fn.id == call.callerId)) with
          | none => exact ⟨rfl, hQ, hE⟩
          | some cIdx =>
            dsimp only
            rw [Option.bind_eq_some] at h1
            obtain ⟨fa, hfa, hci⟩ := h1
            rw [hfa] at h5
            rw [Option.some_bind] at h5
            obtain ⟨-, fnC, hgC, hpC⟩ := findIdx?_spec _ fa.functions 0 cIdx h5
            rw [Nat.sub_zero] at hgC
            have hCid : fnC.id = call.callerId := by simpa using hpC
            have hexp : ∃ k, (k, tAddr) ∈ exports := by
              cases h4a : mapGet exports (res ++ ":" ++ sp.imported) with
              | some t =>
                rw [h4a] at h4
                dsimp only at h4
                injection h4 with h4b
                subst h4b
                exact ⟨_, mapGet_mem h4a⟩
              | none =>
                rw [h4a] at h4
                dsimp only at h4
                exact ⟨_, mapGet_mem h4⟩
            have hj1 : ∀ e ∈ s.files, e.1 = rel → ∀ fn, e.2.functions.get? cIdx = some fn →
                fn.isExported = true ∨ fn.id ∈ e.2.calls.map (fun c => c.callerId) := by
              intro e he hke fn hgf
              have hme : mapGet s.files e.1 = some e.2 := mapGet_of_mem_nodup hnd he
              rw [hke, hfa] at hme
              have he2 : e.2 = fa := by
                injection hme with h
                exact h.symm
              rw [he2] at hgf
              rw [hgC] at hgf
              have hfn : fn = fnC := by
                injection hgf with h
                exact h.symm
              subst hfn
              right
              rw [he2]
              exact List.mem_map.mpr ⟨call, List.get?_mem hci, hCid.symm⟩
            have Q1 := inclInv_updateFnAt hQ hj1
            have E1 := exportsAgree_updateFnAt (r := rel) (i := cIdx) hE
            have hj2 : ∀ e ∈ updateFnAt s.files rel cIdx (fun fn => { fn with incl := true }),
                e.1 = tAddr.1 → ∀ fn, e.2.functions.get? tAddr.2 = some fn →
                fn.isExported = true ∨ fn.id ∈ e.2.calls.map (fun c => c.callerId) := by
              intro e he hke fn hgf
              obtain ⟨k, hk⟩ := hexp
              exact Or.inl (E1 (k, tAddr) hk e he hke fn hgf)
            have Q2 := inclInv_updateFnAt Q1 hj2
            have E2 := exportsAgree_updateFnAt (r := tAddr.1) (i := tAddr.2) E1
            have Q3 : InclInv (updateCallAt (updateFnAt (updateFnAt s.files rel cIdx
                (fun fn => { fn with incl := true })) tAddr.1 tAddr.2
                (fun fn => { fn with incl := true })) rel ci
                (fun c => { c with resolved := some res })) := inclInv_updateCallAt Q2
            have E3 := exportsAgree_updateCallAt
              (r := rel) (i := ci) (g := fun c => { c with resolved := some res }) E2
            have hkeys : (updateCallAt (updateFnAt (updateFnAt s.files rel cIdx
                  (fun fn => { fn with incl := true })) tAddr.1 tAddr.2
                  (fun fn => { fn with incl := true })) rel ci
                  (fun c => { c with resolved := some res })).map (fun e => e.1)
                = s.files.map (fun e => e.1) := by
              rw [updateCallAt_keys, updateFnAt_keys, updateFnAt_keys]
            exact ⟨hkeys, Q3, E3⟩

/-- `collectFunctionEdges` preserves the include discipline of the files
state. -/
theorem collectFunctionEdges_inv (ctx : AnalysisCtx)
    (hnd : (ctx.files.map (fun e => e.1)).Nodup) (hQ : InclInv ctx.files) :
    InclInv (collectFunctionEdges ctx).files := by
  unfold collectFunctionEdges
  dsimp only
  have hE := collectFunctionExports_agree ctx.files hnd
  have hstep : ∀ (s : FnEdgeState) (rel : String),
      (s.files.map (fun e => e.1) = ctx.files.map (fun e => e.1)
        ∧ InclInv s.files ∧ ExportsAgree (collectFunctionExports ctx.files) s.files) →
      ((collectFunctionEdgesFile (collectFunctionExports ctx.files) s rel).files.map
          (fun e => e.1) = ctx.files.map (fun e => e.1)
        ∧ InclInv (collectFunctionEdgesFile (collectFunctionExports ctx.files) s rel).files
        ∧ ExportsAgree (collectFunctionExports ctx.files)
            (collectFunctionEdgesFile (collectFunctionExports ctx.files) s rel).files) := by
    rintro s rel ⟨hk, hQs, hEs⟩
    unfold collectFunctionEdgesFile
    cases hfa : mapGet s.files rel with
    | none => exact ⟨hk, hQs, hEs⟩
    | some fa =>
      dsimp only
      refine foldl_inv
        (fun t : FnEdgeState => t.files.map (fun e => e.1) = ctx.files.map (fun e => e.1)
          ∧ InclInv t.files ∧ ExportsAgree (collectFunctionExports ctx.files) t.files)
        _ ?_ (List.range fa.calls.length) s ⟨hk, hQs, hEs⟩
      rintro t ci ⟨hk2, hQ2, hE2⟩
      have hnd2 : (t.files.map (fun e => e.1)).Nodup := by
        rw [hk2]
        exact hnd
      obtain ⟨hkp, hQp, hEp⟩ := processResolvedCall_inv (collectFunctionExports ctx.files) rel
        (fa.imports.foldl (fun m b => b.specifiers.foldl (fun m sp => mapSet m sp.localName sp) m) [])
        t ci hnd2 hQ2 hE2
      exact ⟨hkp.trans hk2, hQp, hEp⟩
  have main := foldl_inv
    (fun s : FnEdgeState => s.files.map (fun e => e.1) = ctx.files.map (fun e => e.1)
      ∧ InclInv s.files ∧ ExportsAgree (collectFunctionExports ctx.files) s.files)
    (collectFunctionEdgesFile (collectFunctionExports ctx.files))
    hstep (ctx.files.map (fun e => e.1))
    { files := ctx.files, functionEdges := ctx.functionEdges }
    ⟨rfl, hQ, hE⟩
  exact main.2.1

/-- The include discipline holds for the files state of the whole static
pipeline, whatever the inputs and the completion order. -/
theorem staticAnalysisCtx_inclInv (files : List RepoFile)
    (tsPaths : List TsconfigPathsEntry) (arrival : List RepoFile) :
    InclInv (staticAnalysisCtx files tsPaths arrival).files := by
  unfold staticAnalysisCtx
  dsimp only
  obtain ⟨hnd0, hsh0⟩ := extractFiles_entries arrival
  have hQ0 : InclInv (extractFiles arrival).1 := by
    intro e he fn hfn
    obtain ⟨r, stmts, rfl⟩ := hsh0 e he
    exact analyzeFile_incl_inv r stmts fn hfn
  obtain ⟨hk1, hsh1⟩ := resolveImports_shape
    (resolveSpecifier (files.map (fun f => f.rel)) tsPaths)
    { files := (extractFiles arrival).1,
      warnings := if (extractFiles arrival).1.isEmpty
        then (extractFiles arrival).2 ++
          ["No supported source files were parsed. File graph includes nodes without edges."]
        else (extractFiles arrival).2,
      fileEdges := [], functionEdges := [], unresolved := [] }
  apply collectFunctionEdges_inv
  · rw [hk1]
    exact hnd0
  · intro e' he' fn hfn
    obtain ⟨e, he, hk, hfns, hcalls⟩ := hsh1 e' he'
    rw [hfns] at hfn
    rw [hcalls]
    exact hQ0 e he fn hfn

/-- `llmConfMerge` leaves `kind` unchanged. -/
theorem llmConfMerge_kind (ex : EdgeRecord) (conf : Option Confidence) :
    (llmConfMerge ex conf).kind = ex.kind := by
  unfold llmConfMerge
  split <;> rfl

/-- `llmConfMerge` leaves `sourceType` unchanged. -/
theorem llmConfMerge_sourceType (ex : EdgeRecord) (conf : Option Confidence) :
    (llmConfMerge ex conf).sourceType = ex.sourceType := by
  unfold llmConfMerge
  split <;> rfl

/-- `llmConfMerge` never overwrites a present confidence. -/
theorem llmConfMerge_confidence_of_isSome (ex : EdgeRecord) (conf : Option Confidence)
    (h : ex.confidence.isSome = true) : (llmConfMerge ex conf).confidence = ex.confidence := by
  unfold llmConfMerge
  have hn : ex.confidence.isNone = false := by
    cases hc : ex.confidence with
    | none => rw [hc] at h; simp at h
    | some c => simp
  simp [hn]

/-- `llmReasonMerge` leaves `kind` unchanged. -/
theorem llmReasonMerge_kind (ex : EdgeRecord) (reason : Option String) :
    (llmReasonMerge ex reason).kind = ex.kind := by
  unfold llmReasonMerge
  split <;> rfl

/-- `llmReasonMerge` leaves `sourceType` unchanged. -/
theorem llmReasonMerge_sourceType (ex : EdgeRecord) (reason : Option String) :
    (llmReasonMerge ex reason).sourceType = ex.sourceType := by
  unfold llmReasonMerge
  split <;> rfl

/-- `llmReasonMerge` leaves `confidence` unchanged. -/
theorem llmReasonMerge_confidence (ex : EdgeRecord) (reason : Option String) :
    (llmReasonMerge ex reason).confidence = ex.confidence := by
  unfold llmReasonMerge
  split <;> rfl

/-- Every edge-map insertion keeps the map's keys distinct. -/
theorem keysNodup_applyEdgeOp (m : EdgeMap) (op : EdgeOp) (h : keysNodup m) :
    keysNodup (applyEdgeOp m op) := by
  cases op with
  | staticIns s t => exact keysNodup_mapSet _ _ _ h
  | llmFile e =>
    show keysNodup (llmFileEdgeApply m e).1
    unfold llmFileEdgeApply
    cases hg : mapGet m (e.source ++ "->" ++ e.target) with
    | some ex => exact keysNodup_mapSet _ _ _ h
    | none => exact keysNodup_mapSet _ _ _ h
  | llmFn s t kind conf reason =>
    show keysNodup (llmFunctionEdgeApply m s t kind conf reason).1
    unfold llmFunctionEdgeApply
    cases hg : mapGet m (s ++ "->" ++ t) with
    | some ex => exact keysNodup_mapSet _ _ _ h
    | none => exact keysNodup_mapSet _ _ _ h

/-- C3 amended (the claim's dedup/stability statement with the corrected
reason behaviour): any sequence of edge insertions keeps at most one edge
per `(source,target)` key; a second insertion onto an existing key never
changes `kind` or `sourceType` and never overwrites a present confidence;
and the spec's instance — a static `A->B` edge merged with an LLM proposal
of the same pair carrying a confidence — yields exactly one edge, still
static, now carrying that confidence.  (Reasons, by contrast, are appended
to by LLM function-edge merges; see the counterexample.) -/
theorem c3_edge_dedup_amended :
    (∀ ops : List EdgeOp, keysNodup (applyEdgeOps ops))
    ∧ (∀ (m : EdgeMap) (op : EdgeOp) (k : String) (e : EdgeRecord), mapGet m k = some e →
        ∃ e2, mapGet (applyEdgeOp m op) k = some e2
          ∧ e2.kind = e.kind ∧ e2.sourceType = e.sourceType
          ∧ (e.confidence.isSome = true → e2.confidence = e.confidence))
    ∧ (mapGet (applyEdgeOp (applyEdgeOp [] (.staticIns "A" "B"))
          (.llmFile { source := "A", target := "B", relationship := "uses",
                      confidence := some .high })) "A->B"
        = some { source := "A", target := "B", kind := .imports, sourceType := .static,
                 confidence := some .high, reason := none }
      ∧ (applyEdgeOp (applyEdgeOp [] (.staticIns "A" "B"))
          (.llmFile { source := "A", target := "B", relationship := "uses",
                      confidence := some .high })).length = 1) := by
  refine ⟨?_, ?_, by decide, by decide⟩
  · intro ops
    have hfold : ∀ (l : List EdgeOp) (m : EdgeMap), keysNodup m →
        keysNodup (l.foldl applyEdgeOp m) := by
      intro l
      induction l with
      | nil => intro m h; exact h
      | cons op rest ih =>
        intro m h
        rw [List.foldl_cons]
        exact ih _ (keysNodup_applyEdgeOp m op h)
    exact hfold ops [] (by simp [keysNodup])
  · intro m op k e he
    cases op with
    | staticIns s t =>
      show ∃ e2, mapGet (staticEdgeUpsert m s t) k = some e2 ∧ _
      by_cases hk : s ++ "->" ++ t = k
      · unfold staticEdgeUpsert
        rw [hk, he]
        exact ⟨_, mapGet_set_self m k _, rfl, rfl, fun _ => rfl⟩
      · unfold staticEdgeUpsert
        rw [mapGet_set_other m _ k _ hk, he]
        exact ⟨e, rfl, rfl, rfl, fun _ => rfl⟩
    | llmFile p =>
      show ∃ e2, mapGet (llmFileEdgeApply m p).1 k = some e2 ∧ _
      unfold llmFileEdgeApply
      by_cases hk : p.source ++ "->" ++ p.target = k
      · rw [hk, he]
        exact ⟨llmConfMerge e p.confidence, mapGet_set_self m k _,
          llmConfMerge_kind e p.confidence, llmConfMerge_sourceType e p.confidence,
          fun hs => llmConfMerge_confidence_of_isSome e p.confidence hs⟩
      · cases hg : mapGet m (p.source ++ "->" ++ p.target) with
        | some ex =>
          refine ⟨e, ?_, rfl, rfl, fun _ => rfl⟩
          show mapGet (mapSet m (p.source ++ "->" ++ p.target) (llmConfMerge ex p.confidence)) k
            = some e
          rw [mapGet_set_other m _ k _ hk]
          exact he
        | none =>
          refine ⟨e, ?_, rfl, rfl, fun _ => rfl⟩
          show mapGet (mapSet m (p.source ++ "->" ++ p.target)
            { source := p.source, target := p.target, kind := llmFileEdgeKind p.relationship,
              sourceType := .llm, confidence := p.confidence }) k = some e
          rw [mapGet_set_other m _ k _ hk]
          exact he
    | llmFn s t kind conf reason =>
      show ∃ e2, mapGet (llmFunctionEdgeApply m s t kind conf reason).1 k = some e2 ∧ _
      unfold llmFunctionEdgeApply
      by_cases hk : s ++ "->" ++ t = k
      · rw [hk, he]
        refine ⟨llmReasonMerge (llmConfMerge e conf) reason, mapGet_set_self m k _, ?_, ?_, ?_⟩
        · rw [llmReasonMerge_kind, llmConfMerge_kind]
        · rw [llmReasonMerge_sourceType, llmConfMerge_sourceType]
        · intro hs
          rw [llmReasonMerge_confidence, llmConfMerge_confidence_of_isSome e conf hs]
      · cases hg : mapGet m (s ++ "->" ++ t) with
        | some ex =>
          refine ⟨e, ?_, rfl, rfl, fun _ => rfl⟩
          show mapGet (mapSet m (s ++ "->" ++ t)
            (llmReasonMerge (llmConfMerge ex conf) reason)) k = some e
          rw [mapGet_set_other m _ k _ hk]
          exact he
        | none =>
          refine ⟨e, ?_, rfl, rfl, fun _ => rfl⟩
          show mapGet (mapSet m (s ++ "->" ++ t)
            { source := s, target := t, kind := kind,
              sourceType := .llm, confidence := conf, reason := reason }) k = some e
          rw [mapGet_set_other m _ k _ hk]
          exact he

/-- Witness for the C3 merge-stability statement at a seeded static edge. -/
theorem c3_edge_dedup_amended_witness :
    ∃ e2, mapGet (applyEdgeOp [("A->B", c3Seed)] (.staticIns "A" "B")) "A->B" = some e2
      ∧ e2.kind = c3Seed.kind ∧ e2.sourceType = c3Seed.sourceType
      ∧ (c3Seed.confidence.isSome = true → e2.confidence = c3Seed.confidence) :=
  c3_edge_dedup_amended.2.1 [("A->B", c3Seed)] (.staticIns "A" "B") "A->B" c3Seed (by decide)

/-- With no successfully parsed file the static passes leave a context with
no file entries, no edges, and the explanatory warning appended. -/
theorem staticCtx_of_no_parsed (files : List RepoFile) (tsPaths : List TsconfigPathsEntry)
    (arrival : List RepoFile) (hempty : (extractFiles arrival).1 = []) :
    staticAnalysisCtx files tsPaths arrival =
      { files := [],
        warnings := (extractFiles arrival).2 ++
          ["No supported source files were parsed. File graph includes nodes without edges."],
        fileEdges := [], functionEdges := [], unresolved := [] } := by
  simp only [staticAnalysisCtx, hempty]
  rfl

/-- C7 amended: the empty-input half of the claim fails (see the
counterexample), but the no-supported-files half holds: with a nonempty
file list none of which parses as a supported source, the pipeline returns
a valid graph whose file nodes are exactly the directory nodes, with no
edges, no function nodes, and the explanatory warning. -/
theorem c7_empty_graph_amended (repoLabel : String) (files : List RepoFile)
    (dirs : List String) (tsPaths : List TsconfigPathsEntry) (arrival : List RepoFile)
    (hne : files ≠ []) (hempty : (extractFiles arrival).1 = []) :
    ∃ out, analyzeRepositoryGraph repoLabel files dirs tsPaths none arrival = .ok out
      ∧ "No supported source files were parsed. File graph includes nodes without edges."
          ∈ out.warnings
      ∧ out.fileNodes = (directorySetOf dirs).map (mkDirectoryNode repoLabel)
      ∧ out.fileEdges = [] ∧ out.functionNodes = [] ∧ out.functionEdges = []
      ∧ out.fileCount = 0 := by
  have hfe : files.isEmpty = false := by
    cases files with
    | nil => exact absurd rfl hne
    | cons f fs => rfl
  have hctx := staticCtx_of_no_parsed files tsPaths arrival hempty
  have hrun : analyzeRepositoryGraph repoLabel files dirs tsPaths none arrival
      = .ok (materialize repoLabel (files.map (·.rel)) dirs
          (collectUnresolvedWarnings (enrichRelationshipsWithLLM
            (staticAnalysisCtx files tsPaths arrival) none))) := by
    unfold analyzeRepositoryGraph
    simp only [hfe, Bool.false_eq_true, if_false]
  rw [hctx] at hrun
  refine ⟨_, hrun, ?_, ?_, ?_, ?_, ?_, ?_⟩ <;>
    simp [enrichRelationshipsWithLLM, collectUnresolvedWarnings, materialize, functionNodesOf,
      List.filter_eq_nil_iff, mapGet]

/-- Witness for C7 amended at a one-file repository holding only an
unsupported binary. -/
theorem c7_empty_graph_amended_witness :
    ∃ out, analyzeRepositoryGraph "repo" [c7Exe] [] [] none [] = .ok out
      ∧ "No supported source files were parsed. File graph includes nodes without edges."
          ∈ out.warnings
      ∧ out.fileNodes = (directorySetOf []).map (mkDirectoryNode "repo")
      ∧ out.fileEdges = [] ∧ out.functionNodes = [] ∧ out.functionEdges = []
      ∧ out.fileCount = 0 :=
  c7_empty_graph_amended "repo" [c7Exe] [] [] [] (by decide) (by decide)

/-- C8 (confirmed): the enrichment parser never lets an exception escape
(every branch of the try/catch chain ends in `ok`), the fenced reply with
trailing commas parses to the same result as the clean JSON, that result is
the expected edge list, and unrecoverably malformed input yields the empty
result. -/
theorem c8_llm_parser_recovery :
    (∀ s, (parseLLMContentE s).isOk = true)
    ∧ parseLLMContent c8Fenced = parseLLMContent c8Clean
    ∧ parseLLMContent c8Clean = c8Expected
    ∧ parseLLMContent c8Garbage = emptyLLMResult := by
  refine ⟨?_, by decide, by decide, by decide⟩
  intro s
  unfold parseLLMContentE
  cases h1 : jsonParseE (cleanLLMText s) with
  | ok v => simp [h1]; rfl
  | error e =>
    cases h2 : partialSearch (cleanLLMText s).data with
    | none => simp [h1, h2]; rfl
    | some sub =>
      cases h3 : jsonParseE (⟨sub⟩ : String) with
      | ok v => simp [h1, h2, h3]; rfl
      | error e2 => simp [h1, h2, h3]; rfl

/-- `llmConfMerge` leaves `source` unchanged. -/
theorem llmConfMerge_source (ex : EdgeRecord) (conf : Option Confidence) :
    (llmConfMerge ex conf).source = ex.source := by
  unfold llmConfMerge
  split <;> rfl

/-- `llmConfMerge` leaves `target` unchanged. -/
theorem llmConfMerge_target (ex : EdgeRecord) (conf : Option Confidence) :
    (llmConfMerge ex conf).target = ex.target := by
  unfold llmConfMerge
  split <;> rfl

/-- Every entry of the file-edge map after the LLM file-edge fold keeps
kind, provenance and endpoints of a base entry, or is an accepted proposal:
provenance `llm`, kind from the file-level rule, endpoints among the
analyzed file paths. -/
theorem llmFileEdgesLoop_foldl (filePaths : List String) (base : EdgeMap)
    (all : List LLMRelationshipFileEdge) :
    ∀ (edges : List LLMRelationshipFileEdge), (∀ x ∈ edges, x ∈ all) →
    ∀ (s : EdgeMap × Nat),
      (∀ p ∈ s.1, (∃ q ∈ base, p.2.kind = q.2.kind ∧ p.2.sourceType = q.2.sourceType
          ∧ p.2.source = q.2.source ∧ p.2.target = q.2.target)
        ∨ (p.2.sourceType = SourceType.llm
            ∧ (∃ e ∈ all, p.2.kind = llmFileEdgeKind e.relationship)
            ∧ p.2.source ∈ filePaths ∧ p.2.target ∈ filePaths)) →
      ∀ p ∈ (edges.foldl (llmFileEdgesLoop filePaths) s).1,
        (∃ q ∈ base, p.2.kind = q.2.kind ∧ p.2.sourceType = q.2.sourceType
          ∧ p.2.source = q.2.source ∧ p.2.target = q.2.target)
        ∨ (p.2.sourceType = SourceType.llm
            ∧ (∃ e ∈ all, p.2.kind = llmFileEdgeKind e.relationship)
            ∧ p.2.source ∈ filePaths ∧ p.2.target ∈ filePaths) := by
  intro edges
  induction edges with
  | nil => intro _ s hs; exact hs
  | cons x xs ih =>
    intro hall s hs
    rw [List.foldl_cons]
    apply ih (fun y hy => hall y (List.mem_cons_of_mem x hy))
    intro p hp
    unfold llmFileEdgesLoop at hp
    by_cases hc : (filePaths.contains x.source && filePaths.contains x.target) = true
    · rw [if_pos hc] at hp
      dsimp only at hp
      unfold llmFileEdgeApply at hp
      cases hg : mapGet s.1 (x.source ++ "->" ++ x.target) with
      | some ex =>
        rw [hg] at hp
        dsimp only at hp
        rcases mem_mapSet hp with h | h
        · exact hs p h
        · subst h
          have hex := hs (x.source ++ "->" ++ x.target, ex) (mapGet_mem hg)
          rcases hex with ⟨q, hq, h1, h2, h3, h4⟩ | ⟨h1, h2, h3, h4⟩
          · left
            refine ⟨q, hq, ?_, ?_, ?_, ?_⟩
            · rw [llmConfMerge_kind]; exact h1
            · rw [llmConfMerge_sourceType]; exact h2
            · rw [llmConfMerge_source]; exact h3
            · rw [llmConfMerge_target]; exact h4
          · right
            refine ⟨?_, ?_, ?_, ?_⟩
            · rw [llmConfMerge_sourceType]; exact h1
            · obtain ⟨e, he, hk⟩ := h2
              exact ⟨e, he, by rw [llmConfMerge_kind]; exact hk⟩
            · rw [llmConfMerge_source]; exact h3
            · rw [llmConfMerge_target]; exact h4
      | none =>
        rw [hg] at hp
        dsimp only at hp
        rcases mem_mapSet hp with h | h
        · exact hs p h
        · subst h
          right
          have hc1 : filePaths.contains x.source = true := Bool.and_elim_left hc
          have hc2 : filePaths.contains x.target = true := Bool.and_elim_right hc
          exact ⟨rfl, ⟨x, hall x (List.mem_cons_self x xs), rfl⟩,
            by simpa using hc1, by simpa using hc2⟩
    · rw [if_neg hc] at hp
      exact hs p hp

/-- Every entry of the function-edge map after the LLM function-edge fold
keeps kind and provenance of a base entry, or is an accepted proposal:
provenance `llm`, kind from the function-level rule. -/
theorem llmFunctionEdgesLoop_foldl (lookup : List (String × (String × Nat))) (base : EdgeMap)
    (all : List LLMRelationshipFunctionEdge) :
    ∀ (edges : List LLMRelationshipFunctionEdge), (∀ x ∈ edges, x ∈ all) →
    ∀ (s : List (String × FileAnalysis) × EdgeMap × Nat),
      (∀ p ∈ s.2.1, (∃ q ∈ base, p.2.kind = q.2.kind ∧ p.2.sourceType = q.2.sourceType)
        ∨ (p.2.sourceType = SourceType.llm
            ∧ ∃ e ∈ all, p.2.kind = llmFunctionEdgeKind e.relationship)) →
      ∀ p ∈ (edges.foldl (llmFunctionEdgesLoop lookup) s).2.1,
        (∃ q ∈ base, p.2.kind = q.2.kind ∧ p.2.sourceType = q.2.sourceType)
        ∨ (p.2.sourceType = SourceType.llm
            ∧ ∃ e ∈ all, p.2.kind = llmFunctionEdgeKind e.relationship) := by
  intro edges
  induction edges with
  | nil => intro _ s hs; exact hs
  | cons x xs ih =>
    intro hall s hs
    rw [List.foldl_cons]
    apply ih (fun y hy => hall y (List.mem_cons_of_mem x hy))
    obtain ⟨files, m, n⟩ := s
    intro p hp
    unfold llmFunctionEdgesLoop at hp
    dsimp only at hp hs
    cases hg1 : mapGet lookup (x.source.filePath ++ ":" ++ x.source.symbol) with
    | none =>
      rw [hg1] at hp
      exact hs p hp
    | some sAddr =>
      rw [hg1] at hp
      cases hg2 : mapGet lookup (x.target.filePath ++ ":" ++ x.target.symbol) with
      | none =>
        rw [hg2] at hp
        exact hs p hp
      | some tAddr =>
        rw [hg2] at hp
        dsimp only at hp
        unfold llmFunctionEdgeApply at hp
        cases hg : mapGet m
            (((((mapGet (updateFnAt (updateFnAt files sAddr.1 sAddr.2
                  (fun fn => { fn with incl := true })) tAddr.1 tAddr.2
                  (fun fn => { fn with incl := true })) sAddr.1).bind
                (fun fa => fa.functions.get? sAddr.2)).map (fun x => x.id)).getD "")
              ++ "->" ++
              (((((mapGet (updateFnAt (updateFnAt files sAddr.1 sAddr.2
                  (fun fn => { fn with incl := true })) tAddr.1 tAddr.2
                  (fun fn => { fn with incl := true })) tAddr.1).bind
                (fun fa => fa.functions.get? tAddr.2)).map (fun x => x.id)).getD ""))) with
        | some ex =>
          rw [hg] at hp
          dsimp only at hp
          rcases mem_mapSet hp with h | h
          · exact hs p h
          · subst h
            have hex := hs _ (mapGet_mem hg)
            rcases hex with ⟨q, hq, h1, h2⟩ | ⟨h1, h2⟩
            · left
              refine ⟨q, hq, ?_, ?_⟩
              · rw [llmReasonMerge_kind, llmConfMerge_kind]; exact h1
              · rw [llmReasonMerge_sourceType, llmConfMerge_sourceType]; exact h2
            · right
              refine ⟨?_, ?_⟩
              · rw [llmReasonMerge_sourceType, llmConfMerge_sourceType]; exact h1
              · obtain ⟨e, he, hk⟩ := h2
                exact ⟨e, he, by rw [llmReasonMerge_kind, llmConfMerge_kind]; exact hk⟩
        | none =>
          rw [hg] at hp
          dsimp only at hp
          rcases mem_mapSet hp with h | h
          · exact hs p h
          · subst h
            right
            exact ⟨rfl, x, hall x (List.mem_cons_self x xs), rfl⟩

/-- `tryCandidates` only returns members of the known-file set. -/
theorem tryCandidates_mem (fileSet : List String) (base r : String)
    (h : tryCandidates fileSet base = some r) : r ∈ fileSet := by
  unfold tryCandidates at h
  have := List.find?_some h
  simpa using this

/-- `resolveAliasTargets` only returns members of the known-file set. -/
theorem resolveAliasTargets_mem (fileSet : List String) (remainder : String) :
    ∀ (ts : List String) (r : String), resolveAliasTargets fileSet remainder ts = some r →
      r ∈ fileSet := by
  intro ts
  induction ts with
  | nil => intro r h; simp [resolveAliasTargets] at h
  | cons t rest ih =>
    intro r h
    unfold resolveAliasTargets at h
    cases hg : tryCandidates fileSet (posixNormalize (posixJoin t remainder)) with
    | some r2 =>
      rw [hg] at h
      injection h with h2
      subst h2
      exact tryCandidates_mem _ _ _ hg
    | none =>
      rw [hg] at h
      exact ih r h

/-- `resolveAlias` only returns members of the known-file set. -/
theorem resolveAlias_mem (fileSet : List String) (specifier : String) :
    ∀ (paths : List TsconfigPathsEntry) (r : String),
      resolveAlias fileSet specifier paths = some r → r ∈ fileSet := by
  intro paths
  induction paths with
  | nil => intro r h; simp [resolveAlias] at h
  | cons e rest ih =>
    intro r h
    unfold resolveAlias at h
    by_cases hs : strStartsWith specifier e.pfx = true
    · rw [if_pos hs] at h
      cases hg : resolveAliasTargets fileSet (aliasRemainder e specifier) e.targets with
      | some r2 =>
        rw [hg] at h
        injection h with h2
        subst h2
        exact resolveAliasTargets_mem _ _ _ _ hg
      | none =>
        rw [hg] at h
        exact ih r h
    · rw [if_neg hs] at h
      exact ih r h

/-- The resolver only returns members of the known-file set. -/
theorem resolveSpecifier_mem (fileSet : List String) (paths : List TsconfigPathsEntry)
    (fromPath specifier r : String)
    (h : resolveSpecifier fileSet paths fromPath specifier = some r) : r ∈ fileSet := by
  unfold resolveSpecifier at h
  by_cases h0 : specifier = ""
  · rw [if_pos h0] at h
    exact absurd h (by simp)
  · rw [if_neg h0] at h
    dsimp only at h
    by_cases h1 : strStartsWith specifier "." = true
    · rw [if_pos h1] at h
      exact tryCandidates_mem _ _ _ h
    · rw [if_neg h1] at h
      cases h2 : resolveAlias fileSet specifier paths with
      | some r2 =>
        rw [h2] at h
        injection h with h3
        subst h3
        exact resolveAlias_mem _ _ _ _ h2
      | none =>
        rw [h2] at h
        dsimp only at h
        cases h3 : tryCandidates fileSet (posixJoin "." specifier) with
        | some r2 =>
          rw [h3] at h
          injection h with h4
          subst h4
          exact tryCandidates_mem _ _ _ h3
        | none =>
          rw [h3] at h
          dsimp only at h
          exact tryCandidates_mem _ _ _ h

/-- `staticEdgeUpsert` entries: old ones, or an edge with the given
endpoints. -/
theorem mem_staticEdgeUpsert {m : EdgeMap} {src tgt : String} {p : String × EdgeRecord}
    (hp : p ∈ staticEdgeUpsert m src tgt) :
    p ∈ m ∨ (p.2.source = src ∧ p.2.target = tgt) := by
  unfold staticEdgeUpsert at hp
  rcases mem_mapSet hp with h | h
  · exact Or.inl h
  · subst h
    exact Or.inr ⟨rfl, rfl⟩

/-- File edges written by one binding resolution: old ones, or an edge from
the resolving file to a member of the known-file set. -/
theorem resolveBinding_edges (resolver : String → String → Option String)
    (fileSet : List String) (relPath : String) (acc : ResolveAcc) (b : ImportBinding)
    (hres : ∀ spec r, resolver relPath spec = some r → r ∈ fileSet) :
    ∀ p ∈ (resolveBinding resolver relPath acc b).1.fileEdges,
      p ∈ acc.fileEdges ∨ (p.2.source = relPath ∧ p.2.target ∈ fileSet) := by
  intro p hp
  unfold resolveBinding at hp
  cases hr : resolver relPath b.source with
  | some r =>
    rw [hr] at hp
    dsimp only at hp
    rcases mem_staticEdgeUpsert hp with h | ⟨h1, h2⟩
    · exact Or.inl h
    · exact Or.inr ⟨h1, h2 ▸ hres b.source r hr⟩
  | none =>
    rw [hr] at hp
    dsimp only at hp
    by_cases hb : b.source ≠ ""
    · rw [if_pos hb] at hp
      exact Or.inl hp
    · rw [if_neg hb] at hp
      exact Or.inl hp

/-- File edges written while resolving one file: old ones, or edges from
that file into the known-file set. -/
theorem resolveFilesStep_edges (resolver : String → String → Option String)
    (fileSet : List String) (s : ResolveAcc × List (String × FileAnalysis))
    (entry : String × FileAnalysis)
    (hres : ∀ spec r, resolver entry.1 spec = some r → r ∈ fileSet) :
    ∀ p ∈ (resolveFilesStep resolver s entry).1.fileEdges,
      p ∈ s.1.fileEdges ∨ (p.2.source = entry.1 ∧ p.2.target ∈ fileSet) := by
  unfold resolveFilesStep
  dsimp only
  have key : ∀ (bl : List ImportBinding) (t : ResolveAcc × List ImportBinding),
      (∀ p ∈ t.1.fileEdges, p ∈ s.1.fileEdges ∨ (p.2.source = entry.1 ∧ p.2.target ∈ fileSet)) →
      ∀ p ∈ (bl.foldl (fun (t : ResolveAcc × List ImportBinding) b =>
          let (acc, bs) := t
          let (acc, b') := resolveBinding resolver entry.1 acc b
          (acc, bs ++ [b'])) t).1.fileEdges,
        p ∈ s.1.fileEdges ∨ (p.2.source = entry.1 ∧ p.2.target ∈ fileSet) := by
    intro bl
    induction bl with
    | nil => intro t ht; exact ht
    | cons b rest ih =>
      intro t ht
      rw [List.foldl_cons]
      apply ih
      obtain ⟨acc, bs2⟩ := t
      intro p hp
      dsimp only at hp ht
      cases hrb : resolveBinding resolver entry.1 acc b with
      | mk acc2 b2 =>
        rw [hrb] at hp
        dsimp only at hp
        have := resolveBinding_edges resolver fileSet entry.1 acc b hres p (by rw [hrb]; exact hp)
        rcases this with h | h
        · exact ht p h
        · exact Or.inr h
  intro p hp
  exact key entry.2.imports (s.1, []) (fun q hq => Or.inl hq) p hp

/-- Static file edges of `resolveImports`: pre-existing ones, or edges from
an analyzed file into the known-file set. -/
theorem resolveImports_edges (resolver : String → String → Option String)
    (fileSet : List String) (ctx : AnalysisCtx)
    (hres : ∀ rel spec r, resolver rel spec = some r → r ∈ fileSet) :
    ∀ p ∈ (resolveImports resolver ctx).fileEdges,
      p ∈ ctx.fileEdges
      ∨ (p.2.source ∈ ctx.files.map (fun e => e.1) ∧ p.2.target ∈ fileSet) := by
  unfold resolveImports
  dsimp only
  have key : ∀ (l : List (String × FileAnalysis)), (∀ x ∈ l, x ∈ ctx.files) →
      ∀ (s : ResolveAcc × List (String × FileAnalysis)),
      (∀ p ∈ s.1.fileEdges, p ∈ ctx.fileEdges
        ∨ (p.2.source ∈ ctx.files.map (fun e => e.1) ∧ p.2.target ∈ fileSet)) →
      ∀ p ∈ (l.foldl (resolveFilesStep resolver) s).1.fileEdges,
        p ∈ ctx.fileEdges
        ∨ (p.2.source ∈ ctx.files.map (fun e => e.1) ∧ p.2.target ∈ fileSet) := by
    intro l
    induction l with
    | nil => intro _ s hs; exact hs
    | cons x xs ih =>
      intro hl s hs
      rw [List.foldl_cons]
      apply ih (fun y hy => hl y (List.mem_cons_of_mem x hy))
      intro p hp
      rcases resolveFilesStep_edges resolver fileSet s x
          (fun spec r h => hres x.1 spec r h) p hp with h | ⟨h1, h2⟩
      · exact hs p h
      · refine Or.inr ⟨?_, h2⟩
        rw [h1]
        exact List.mem_map.mpr ⟨x, hl x (List.mem_cons_self x xs), rfl⟩
  intro p hp
  exact key ctx.files (fun x hx => hx) (⟨ctx.fileEdges, ctx.unresolved⟩, [])
    (fun q hq => Or.inl hq) p hp

/-- `processResolvedCall` preserves the key sequence of the files state. -/
theorem processResolvedCall_keys (exports : List (String × (String × Nat))) (rel : String)
    (specMap : List (String × ImportSpecifierB)) (s : FnEdgeState) (ci : Nat) :
    (processResolvedCall exports rel specMap s ci).files.map (fun e => e.1)
      = s.files.map (fun e => e.1) := by
  unfold processResolvedCall
  cases h1 : (mapGet s.files rel).bind (fun fa => fa.calls.get? ci) with
  | none => rfl
  | some call =>
    dsimp only
    cases h2 : mapGet specMap call.localName with
    | none => rfl
    | some sp =>
      dsimp only
      cases h3 : sp.resolved with
      | none => rfl
      | some res =>
        dsimp only
        cases h4 : (match mapGet exports (res ++ ":" ++ sp.imported) with
            | some t => some t
            | none => mapGet exports (res ++ ":default")) with
        | none => rfl
        | some tAddr =>
          dsimp only
          cases h5 : (mapGet s.files rel).bind
              (fun fa => fa.functions.findIdx? (fun fn => fn.id == call.callerId)) with
          | none => rfl
          | some cIdx =>
            dsimp only
            rw [updateCallAt_keys, updateFnAt_keys, updateFnAt_keys]

/-- `collectFunctionEdgesFile` preserves the key sequence. -/
theorem collectFunctionEdgesFile_keys (exports : List (String × (String × Nat)))
    (s : FnEdgeState) (rel : String) :
    (collectFunctionEdgesFile exports s rel).files.map (fun e => e.1)
      = s.files.map (fun e => e.1) := by
  unfold collectFunctionEdgesFile
  cases hfa : mapGet s.files rel with
  | none => rfl
  | some fa =>
    dsimp only
    refine foldl_inv
      (fun t : FnEdgeState => t.files.map (fun e => e.1) = s.files.map (fun e => e.1))
      _ ?_ (List.range fa.calls.length) s rfl
    intro t ci ht
    rw [processResolvedCall_keys]
    exact ht

/-- `collectFunctionEdges` preserves the key sequence and leaves the file
edges untouched. -/
theorem collectFunctionEdges_keys (ctx : AnalysisCtx) :
    (collectFunctionEdges ctx).files.map (fun e => e.1) = ctx.files.map (fun e => e.1)
    ∧ (collectFunctionEdges ctx).fileEdges = ctx.fileEdges := by
  refine ⟨?_, rfl⟩
  unfold collectFunctionEdges
  dsimp only
  refine foldl_inv
    (fun t : FnEdgeState => t.files.map (fun e => e.1) = ctx.files.map (fun e => e.1))
    (collectFunctionEdgesFile (collectFunctionExports ctx.files))
    ?_ (ctx.files.map (fun e => e.1))
    { files := ctx.files, functionEdges := ctx.functionEdges } rfl
  intro t rel ht
  rw [collectFunctionEdgesFile_keys]
  exact ht

/-- The key sequence of the static pipeline's files state is the extraction
phase's. -/
theorem staticAnalysisCtx_keys (files : List RepoFile) (tsPaths : List TsconfigPathsEntry)
    (arrival : List RepoFile) :
    (staticAnalysisCtx files tsPaths arrival).files.map (fun e => e.1)
      = (extractFiles arrival).1.map (fun e => e.1) := by
  unfold staticAnalysisCtx
  dsimp only
  rw [(collectFunctionEdges_keys _).1]
  exact (resolveImports_shape _ _).1

/-- C1 (confirmed): for the spec's pair — `util.ts` exporting `helper` and
`main.ts` importing it by name and calling it at top level — the run
produces a function node for the exported function, a node for the
importing file's module pseudo-record, and exactly one function edge from
the pseudo-record to the exported function; a top-level call of a locally
declared, non-imported function produces no function edge; and in general
every call record of a traversal is bound by a non-namespace import
specifier, so a callee not bound by an import declaration can never
contribute a function edge. -/
theorem c1_cross_file_call_edge :
    ((analyzeRepositoryGraph "repo" [c1Util, c1Main] [] [] none [c1Util, c1Main]).map
        (fun o => (o.functionNodes.map (fun n => n.id),
          o.functionEdges.map (fun ed => (ed.source, ed.target)))))
      = .ok (["util.ts::helper", "main.ts::(module)"],
             [("main.ts::(module)", "util.ts::helper")])
    ∧ ((analyzeRepositoryGraph "repo" [c1Local] [] [] none [c1Local]).map
        (fun o => o.functionEdges)) = .ok []
    ∧ (∀ (relPath : String) (stmts : List Stmt) (cb : CallBinding),
        cb ∈ (analyzeFile relPath stmts).calls →
        ∃ ib ∈ (analyzeFile relPath stmts).imports, ∃ sp ∈ ib.specifiers,
          sp.localName = cb.localName ∧ sp.btype ≠ BindingType.namespaceB) := by
  refine ⟨by decide, by decide, ?_⟩
  intro relPath stmts cb hcb
  exact analyzeFile_calls_import_bound relPath stmts cb hcb

/-- C1 witness: the universal conjunct applied to `main.ts`'s concrete
traversal and its recorded call of `helper`. -/
theorem c1_cross_file_call_edge_witness :
    c1MainCall ∈ (analyzeFile "main.ts" c1MainStmts).calls
    ∧ ∃ ib ∈ (analyzeFile "main.ts" c1MainStmts).imports, ∃ sp ∈ ib.specifiers,
        sp.localName = c1MainCall.localName ∧ sp.btype ≠ BindingType.namespaceB :=
  ⟨by decide, c1_cross_file_call_edge.2.2 "main.ts" c1MainStmts c1MainCall (by decide)⟩

/-- C4 (amended): across the whole static pipeline, every exported record is
included, and an included record is exported or is the caller of one of its
file's recorded import-bound calls — resolved or not.  (Resolution is not
required: the traversal marks callers included as soon as the call is
recorded; the only other inclusion source, the export index used for call
targets, contains exported records only.) -/
theorem c4_include_amended (files : List RepoFile) (tsPaths : List TsconfigPathsEntry)
    (arrival : List RepoFile) :
    ∀ e ∈ (staticAnalysisCtx files tsPaths arrival).files, ∀ fn ∈ e.2.functions,
      (fn.isExported = true → fn.incl = true)
      ∧ (fn.incl = true → fn.isExported = true
          ∨ fn.id ∈ e.2.calls.map (fun c => c.callerId)) :=
  staticAnalysisCtx_inclInv files tsPaths arrival

/-- C4 witness: the amended rule applied to the unresolved-import fixture's
module pseudo-record. -/
theorem c4_include_amended_witness :
    c4Entry ∈ c4Ctx.files
    ∧ c4Fn ∈ c4Entry.2.functions
    ∧ ((c4Fn.isExported = true → c4Fn.incl = true)
      ∧ (c4Fn.incl = true → c4Fn.isExported = true
          ∨ c4Fn.id ∈ c4Entry.2.calls.map (fun c => c.callerId))) :=
  ⟨by decide, by decide,
    c4_include_amended [c4File] [] [c4File] c4Entry (by decide) c4Fn (by decide)⟩

/-- C4 counterexample: an import-bound call that never resolves still marks
its caller included at traversal time: `main.ts`'s module pseudo-record is
not exported, no call of the run resolves (the static pass produces no
function edge), yet the record is included and becomes a node of the run's
function graph — refuting the claimed equivalence with participation in a
resolved call edge. -/
theorem c4_counterexample :
    c4Fn.incl = true ∧ c4Fn.isExported = false ∧ c4Ctx.functionEdges = []
    ∧ (analyzeRepositoryGraph "repo" [c4File] [] [] none [c4File]).map
        (fun o => (o.functionNodes.map (fun n => n.id), o.functionEdges))
      = .ok (["main.ts::(module)"], []) := by
  refine ⟨by decide, by decide, by decide, by decide⟩

/-- C5 (amended): an edge untouched by static analysis that enrichment
accepts carries provenance `llm`, but the kind rule is per level, not the
claim's single keyword rule: a file-level proposal gets `imports` exactly
when its lower-cased label is `imports` verbatim (never `invokes`, even for
a label containing `call`), while a function-level proposal gets `invokes`
exactly when its lower-cased label contains `call` or `invoke` (never
`imports`); every other label yields `llm-reference` at either level. -/
theorem c5_llm_kind_amended (ctx : AnalysisCtx) (result : LLMRelationshipResult) :
    (∀ p ∈ (enrichRelationshipsWithLLM ctx (some result)).fileEdges,
      (∃ q ∈ ctx.fileEdges, p.2.kind = q.2.kind ∧ p.2.sourceType = q.2.sourceType
        ∧ p.2.source = q.2.source ∧ p.2.target = q.2.target)
      ∨ (p.2.sourceType = SourceType.llm
          ∧ (∃ e ∈ result.fileEdges, p.2.kind = llmFileEdgeKind e.relationship)
          ∧ p.2.source ∈ ctx.files.map (fun en => en.1)
          ∧ p.2.target ∈ ctx.files.map (fun en => en.1)))
    ∧ (∀ p ∈ (enrichRelationshipsWithLLM ctx (some result)).functionEdges,
      (∃ q ∈ ctx.functionEdges, p.2.kind = q.2.kind ∧ p.2.sourceType = q.2.sourceType)
      ∨ (p.2.sourceType = SourceType.llm
          ∧ ∃ e ∈ result.functionEdges, p.2.kind = llmFunctionEdgeKind e.relationship))
    ∧ (∀ r, llmFileEdgeKind r ≠ EdgeKind.invokes)
    ∧ (∀ r, llmFunctionEdgeKind r ≠ EdgeKind.imports)
    ∧ (∀ r, llmFileEdgeKind r = EdgeKind.imports ↔ jsToLowerCase r = "imports")
    ∧ (∀ r, llmFunctionEdgeKind r = EdgeKind.invokes
        ↔ (strIncludes (jsToLowerCase r) "call"
            || strIncludes (jsToLowerCase r) "invoke") = true) := by
  have hfe : (enrichRelationshipsWithLLM ctx (some result)).fileEdges
      = (result.fileEdges.foldl (llmFileEdgesLoop (ctx.files.map (fun en => en.1)))
          (ctx.fileEdges, 0)).1 := rfl
  have hfn : (enrichRelationshipsWithLLM ctx (some result)).functionEdges
      = (result.functionEdges.foldl (llmFunctionEdgesLoop (buildFunctionLookup ctx.files))
          (ctx.files, ctx.functionEdges, 0)).2.1 := rfl
  refine ⟨?_, ?_, ?_, ?_, ?_, ?_⟩
  · intro p hp
    rw [hfe] at hp
    exact llmFileEdgesLoop_foldl (ctx.files.map (fun en => en.1)) ctx.fileEdges
      result.fileEdges result.fileEdges (fun x hx => hx) (ctx.fileEdges, 0)
      (fun q hq => Or.inl ⟨q, hq, rfl, rfl, rfl, rfl⟩) p hp
  · intro p hp
    rw [hfn] at hp
    exact llmFunctionEdgesLoop_foldl (buildFunctionLookup ctx.files) ctx.functionEdges
      result.functionEdges result.functionEdges (fun x hx => hx)
      (ctx.files, ctx.functionEdges, 0)
      (fun q hq => Or.inl ⟨q, hq, rfl, rfl⟩) p hp
  · intro r
    unfold llmFileEdgeKind
    by_cases h : jsToLowerCase r = "imports" <;> simp [h]
  · intro r
    unfold llmFunctionEdgeKind
    by_cases h : (strIncludes (jsToLowerCase r) "call"
        || strIncludes (jsToLowerCase r) "invoke") = true <;> simp [h]
  · intro r
    unfold llmFileEdgeKind
    by_cases h : jsToLowerCase r = "imports" <;> simp [h]
  · intro r
    unfold llmFunctionEdgeKind
    by_cases h : (strIncludes (jsToLowerCase r) "call"
        || strIncludes (jsToLowerCase r) "invoke") = true <;> simp [h]

/-- C5 witness: the accepted `calls`-labelled file edge of the fixture run
satisfies the amended rule. -/
theorem c5_llm_kind_amended_witness :
    c5Edge ∈ c5Enriched.fileEdges
    ∧ ((∃ q ∈ c5Ctx.fileEdges, c5Edge.2.kind = q.2.kind ∧ c5Edge.2.sourceType = q.2.sourceType
        ∧ c5Edge.2.source = q.2.source ∧ c5Edge.2.target = q.2.target)
      ∨ (c5Edge.2.sourceType = SourceType.llm
          ∧ (∃ e ∈ c5LLM.fileEdges, c5Edge.2.kind = llmFileEdgeKind e.relationship)
          ∧ c5Edge.2.source ∈ c5Ctx.files.map (fun en => en.1)
          ∧ c5Edge.2.target ∈ c5Ctx.files.map (fun en => en.1))) :=
  ⟨by decide, (c5_llm_kind_amended c5Ctx c5LLM).1 c5Edge (by decide)⟩

/-- C6 (amended): a file-level proposal is accepted only when both endpoints
are analyzed files — so every file edge after enrichment either keeps the
endpoints of a static edge or joins two analyzed files, which have file
nodes; a function-level proposal whose endpoints do not both resolve in the
function lookup is dropped without touching the state.  (The accepted
function-edge endpoints are static function records, but — see the
counterexample — not necessarily nodes of the LLM-disabled graph: the
enrichment forces them into the node set.) -/
theorem c6_llm_endpoints_amended (ctx : AnalysisCtx) (result : LLMRelationshipResult) :
    (∀ p ∈ (enrichRelationshipsWithLLM ctx (some result)).fileEdges,
      (∃ q ∈ ctx.fileEdges, p.2.source = q.2.source ∧ p.2.target = q.2.target)
      ∨ (p.2.source ∈ ctx.files.map (fun en => en.1)
          ∧ p.2.target ∈ ctx.files.map (fun en => en.1)))
    ∧ (∀ (lookup : List (String × (String × Nat)))
        (s : List (String × FileAnalysis) × EdgeMap × Nat) (e : LLMRelationshipFunctionEdge),
        mapGet lookup (e.source.filePath ++ ":" ++ e.source.symbol) = none
          ∨ mapGet lookup (e.target.filePath ++ ":" ++ e.target.symbol) = none →
        llmFunctionEdgesLoop lookup s e = s) := by
  constructor
  · intro p hp
    have hfe : (enrichRelationshipsWithLLM ctx (some result)).fileEdges
        = (result.fileEdges.foldl (llmFileEdgesLoop (ctx.files.map (fun en => en.1)))
            (ctx.fileEdges, 0)).1 := rfl
    rw [hfe] at hp
    have h := llmFileEdgesLoop_foldl (ctx.files.map (fun en => en.1)) ctx.fileEdges
      result.fileEdges result.fileEdges (fun x hx => hx) (ctx.fileEdges, 0)
      (fun q hq => Or.inl ⟨q, hq, rfl, rfl, rfl, rfl⟩) p hp
    rcases h with ⟨q, hq, _, _, h3, h4⟩ | ⟨_, _, h3, h4⟩
    · exact Or.inl ⟨q, hq, h3, h4⟩
    · exact Or.inr ⟨h3, h4⟩
  · intro lookup s e hnone
    obtain ⟨files, m, n⟩ := s
    unfold llmFunctionEdgesLoop
    dsimp only
    cases hg1 : mapGet lookup (e.source.filePath ++ ":" ++ e.source.symbol) with
    | none =>
      cases hg2 : mapGet lookup (e.target.filePath ++ ":" ++ e.target.symbol) with
      | none => rfl
      | some tAddr => rfl
    | some sAddr =>
      cases hg2 : mapGet lookup (e.target.filePath ++ ":" ++ e.target.symbol) with
      | none => rfl
      | some tAddr =>
        rcases hnone with h | h
        · rw [hg1] at h
          exact absurd h (by simp)
        · rw [hg2] at h
          exact absurd h (by simp)

/-- C6 witness: a proposal with unresolvable endpoints is rejected without
touching the state. -/
theorem c6_llm_endpoints_amended_witness :
    mapGet ([] : List (String × (String × Nat)))
        (c6Probe.source.filePath ++ ":" ++ c6Probe.source.symbol) = none
    ∧ llmFunctionEdgesLoop [] ([], [], 0) c6Probe = ([], [], 0) :=
  ⟨rfl, (c6_llm_endpoints_amended ⟨[], [], [], [], []⟩ c6LLM).2 [] ([], [], 0) c6Probe
      (Or.inl rfl)⟩

set_option maxHeartbeats 1600000 in
/-- C10 (confirmed): every statically derived file edge starts at an
analyzed (successfully parsed) file — which therefore has a file node —
while its target is only guaranteed to lie in the full repository file set;
in the fixture, `a.ts`'s import resolves to the unparsed `b.json`, so the
run emits the edge `a.ts -> b.json` although no node `b.json` exists. -/
theorem c10_file_edge_endpoints :
    (∀ (files : List RepoFile) (tsPaths : List TsconfigPathsEntry) (arrival : List RepoFile),
      ∀ p ∈ (staticAnalysisCtx files tsPaths arrival).fileEdges,
        p.2.source ∈ (staticAnalysisCtx files tsPaths arrival).files.map (fun e => e.1)
        ∧ p.2.target ∈ files.map (fun f => f.rel))
    ∧ ((analyzeRepositoryGraph "repo" [c10A, c10B] [] [] none (parseTargets [c10A, c10B])).map
        (fun o => (o.fileEdges.map (fun e => (e.source, e.target)),
          o.fileNodes.map (fun n => n.id)))
      = .ok ([("a.ts", "b.json")], ["dir:.", "a.ts"]))
    ∧ "b.json" ∉ ["dir:.", "a.ts"] := by
  refine ⟨?_, by decide, by decide⟩
  intro files tsPaths arrival p hp
  unfold staticAnalysisCtx at hp
  dsimp only at hp
  rw [(collectFunctionEdges_keys _).2] at hp
  rcases resolveImports_edges (resolveSpecifier (files.map (fun f => f.rel)) tsPaths)
      (files.map (fun f => f.rel)) _
      (fun rel spec r h => resolveSpecifier_mem _ _ _ _ _ h) p hp with h | ⟨h1, h2⟩
  · simp at h
  · refine ⟨?_, h2⟩
    rw [staticAnalysisCtx_keys files tsPaths arrival]
    exact h1

/-- C10 witness: the fixture's single file edge, with its endpoints checked
against the amendedly guaranteed sets. -/
theorem c10_file_edge_endpoints_witness :
    c10Edge ∈ c10Ctx.fileEdges
    ∧ (c10Edge.2.source ∈ c10Ctx.files.map (fun e => e.1)
      ∧ c10Edge.2.target ∈ [c10A, c10B].map (fun f => f.rel)) :=
  ⟨by decide, c10_file_edge_endpoints.1 [c10A, c10B] [] [c10A] c10Edge (by decide)⟩

/-- Membership in the keys after `set`: the old keys plus the written key. -/
theorem mem_keys_mapSet {α : Type _} (m : List (String × α)) (k : String) (v : α) (x : String) :
    x ∈ (mapSet m k v).map (fun e => e.1) ↔ x ∈ m.map (fun e => e.1) ∨ x = k := by
  by_cases hs : (m.find? (fun p => p.1 == k)).isSome = true
  · have hk : k ∈ m.map (fun e => e.1) := by
      obtain ⟨p, hp⟩ := Option.isSome_iff_exists.mp hs
      have h1 := List.find?_some hp
      have h2 := List.mem_of_find?_eq_some hp
      exact List.mem_map.mpr ⟨p, h2, by simpa using h1⟩
    have hkeys : (mapSet m k v).map (fun e => e.1) = m.map (fun e => e.1) := by
      rcases mapSet_keys m k v with h | ⟨h, hnm⟩
      · exact h
      · exact absurd hk hnm
    rw [hkeys]
    constructor
    · exact Or.inl
    · rintro (hx | rfl)
      · exact hx
      · exact hk
  · have hn := eq_none_of_not_isSome hs
    have hkeys : (mapSet m k v).map (fun e => e.1) = m.map (fun e => e.1) ++ [k] := by
      unfold mapSet
      rw [hn]
      simp
    rw [hkeys]
    simp

/-- Membership in the extraction keys, relative to an arbitrary starting
state: a starting key, or the path of an arriving file that parses. -/
theorem extractStep_foldl_keys (a : List RepoFile) :
    ∀ (s : List (String × FileAnalysis) × List String) (rel : String),
      rel ∈ (a.foldl extractStep s).1.map (fun e => e.1)
        ↔ rel ∈ s.1.map (fun e => e.1)
          ∨ ∃ f ∈ a, f.rel = rel ∧ ∃ stmts, f.parse = ParseOutcome.ok stmts := by
  induction a with
  | nil =>
    intro s rel
    simp
  | cons f fs ih =>
    intro s rel
    rw [List.foldl_cons, ih]
    cases hp : f.parse with
    | ok stmts0 =>
      have h1 : rel ∈ (extractStep s f).1.map (fun e => e.1)
          ↔ rel ∈ s.1.map (fun e => e.1) ∨ rel = f.rel := by
        unfold extractStep
        rw [hp]
        exact mem_keys_mapSet s.1 f.rel _ rel
      rw [h1]
      constructor
      · rintro ((hk | rfl) | ⟨f2, hf2, h3, h4⟩)
        · exact Or.inl hk
        · exact Or.inr ⟨f, List.mem_cons_self f fs, rfl, stmts0, hp⟩
        · exact Or.inr ⟨f2, List.mem_cons_of_mem f hf2, h3, h4⟩
      · rintro (hk | ⟨f2, hf2, h3, h4⟩)
        · exact Or.inl (Or.inl hk)
        · rcases List.mem_cons.mp hf2 with rfl | hf2a
          · exact Or.inl (Or.inr h3.symm)
          · exact Or.inr ⟨f2, hf2a, h3, h4⟩
    | failed msg =>
      have h1 : (extractStep s f).1 = s.1 := by
        unfold extractStep
        rw [hp]
      rw [h1]
      constructor
      · rintro (hk | ⟨f2, hf2, h3, h4⟩)
        · exact Or.inl hk
        · exact Or.inr ⟨f2, List.mem_cons_of_mem f hf2, h3, h4⟩
      · rintro (hk | ⟨f2, hf2, h3, h4⟩)
        · exact Or.inl hk
        · rcases List.mem_cons.mp hf2 with rfl | hf2a
          · obtain ⟨stmts, h5⟩ := h4
            rw [hp] at h5
            exact absurd h5 (by simp)
          · exact Or.inr ⟨f2, hf2a, h3, h4⟩

/-- A path is an extraction key exactly when some arriving file with that
path parses. -/
theorem extractFiles_keys_mem (a : List RepoFile) (rel : String) :
    rel ∈ (extractFiles a).1.map (fun e => e.1)
      ↔ ∃ f ∈ a, f.rel = rel ∧ ∃ stmts, f.parse = ParseOutcome.ok stmts := by
  unfold extractFiles
  rw [extractStep_foldl_keys a ([], []) rel]
  simp

/-- The extraction key set only depends on the arrival multiset. -/
theorem extractFiles_keys_perm {a1 a2 : List RepoFile} (hperm : a1.Perm a2) (rel : String) :
    rel ∈ (extractFiles a1).1.map (fun e => e.1)
      ↔ rel ∈ (extractFiles a2).1.map (fun e => e.1) := by
  rw [extractFiles_keys_mem, extractFiles_keys_mem]
  constructor
  · rintro ⟨f, hf, h⟩
    exact ⟨f, hperm.mem_iff.mp hf, h⟩
  · rintro ⟨f, hf, h⟩
    exact ⟨f, hperm.mem_iff.mpr hf, h⟩

/-- Lists with the same membership agree on `contains`. -/
theorem contains_eq_of_mem_iff {l1 l2 : List String} (h : ∀ x, x ∈ l1 ↔ x ∈ l2) (x : String) :
    l1.contains x = l2.contains x := by
  by_cases hx : x ∈ l1
  · have hx2 := (h x).mp hx
    simp [hx, hx2]
  · have hx2 : x ∉ l2 := fun h2 => hx ((h x).mpr h2)
    simp [hx, hx2]

/-- Duplicate-free lists with the same membership have the same length. -/
theorem length_eq_of_nodup_mem_iff {l1 l2 : List String} (h1 : l1.Nodup) (h2 : l2.Nodup)
    (h : ∀ x, x ∈ l1 ↔ x ∈ l2) : l1.length = l2.length := by
  have ht : l1.toFinset = l2.toFinset := by
    ext x
    simp only [List.mem_toFinset]
    exact h x
  calc l1.length = l1.toFinset.card := (List.toFinset_card_of_nodup h1).symm
    _ = l2.toFinset.card := by rw [ht]
    _ = l2.length := List.toFinset_card_of_nodup h2

/-- The materialized file-node sequence, file count and directory count only
depend on the key set of the files state. -/
theorem materialize_det (repoLabel : String) (allFiles : List String) (dirs : List String)
    (ctx1 ctx2 : AnalysisCtx)
    (hmem : ∀ rel, rel ∈ ctx1.files.map (fun e => e.1) ↔ rel ∈ ctx2.files.map (fun e => e.1))
    (hnd1 : (ctx1.files.map (fun e => e.1)).Nodup)
    (hnd2 : (ctx2.files.map (fun e => e.1)).Nodup) :
    (materialize repoLabel allFiles dirs ctx1).fileNodes
        = (materialize repoLabel allFiles dirs ctx2).fileNodes
    ∧ (materialize repoLabel allFiles dirs ctx1).fileCount
        = (materialize repoLabel allFiles dirs ctx2).fileCount
    ∧ (materialize repoLabel allFiles dirs ctx1).directoryCount
        = (materialize repoLabel allFiles dirs ctx2).directoryCount := by
  unfold materialize
  dsimp only
  refine ⟨?_, ?_, rfl⟩
  · have hfilter : allFiles.filter (fun rel => (ctx1.files.map (fun e => e.1)).contains rel)
        = allFiles.filter (fun rel => (ctx2.files.map (fun e => e.1)).contains rel) :=
      List.filter_congr (fun a _ => contains_eq_of_mem_iff hmem a)
    rw [hfilter]
  · exact length_eq_of_nodup_mem_iff hnd1 hnd2 hmem

/-- C9 (amended): with LLM enrichment disabled, the run is deterministic in
the inputs and the parse results, except for sequence order inherited from
the completion order of the parallel extraction phase: any two completion
orders that are permutations of each other yield the same file-node
sequence, file count and directory count — whereas the counterexample shows
the edge sequences need not be byte-identical. -/
theorem c9_determinism_amended (repoLabel : String) (files : List RepoFile)
    (dirs : List String) (tsPaths : List TsconfigPathsEntry) (a1 a2 : List RepoFile)
    (hperm : a1.Perm a2) :
    ((analyzeRepositoryGraph repoLabel files dirs tsPaths none a1).map
        (fun o => (o.fileNodes, o.fileCount, o.directoryCount)))
      = ((analyzeRepositoryGraph repoLabel files dirs tsPaths none a2).map
        (fun o => (o.fileNodes, o.fileCount, o.directoryCount))) := by
  unfold analyzeRepositoryGraph
  by_cases hemp : files.isEmpty = true
  · rw [if_pos hemp, if_pos hemp]
  · rw [if_neg hemp, if_neg hemp]
    dsimp only [Except.map]
    have e1 : (collectUnresolvedWarnings (enrichRelationshipsWithLLM
        (staticAnalysisCtx files tsPaths a1) none)).files
        = (staticAnalysisCtx files tsPaths a1).files := rfl
    have e2 : (collectUnresolvedWarnings (enrichRelationshipsWithLLM
        (staticAnalysisCtx files tsPaths a2) none)).files
        = (staticAnalysisCtx files tsPaths a2).files := rfl
    have hmem : ∀ rel,
        rel ∈ (collectUnresolvedWarnings (enrichRelationshipsWithLLM
          (staticAnalysisCtx files tsPaths a1) none)).files.map (fun e => e.1)
        ↔ rel ∈ (collectUnresolvedWarnings (enrichRelationshipsWithLLM
          (staticAnalysisCtx files tsPaths a2) none)).files.map (fun e => e.1) := by
      intro rel
      rw [e1, e2, staticAnalysisCtx_keys, staticAnalysisCtx_keys]
      exact extractFiles_keys_perm hperm rel
    have hnd1 : ((collectUnresolvedWarnings (enrichRelationshipsWithLLM
        (staticAnalysisCtx files tsPaths a1) none)).files.map (fun e => e.1)).Nodup := by
      rw [e1, staticAnalysisCtx_keys]
      exact (extractFiles_entries a1).1
    have hnd2 : ((collectUnresolvedWarnings (enrichRelationshipsWithLLM
        (staticAnalysisCtx files tsPaths a2) none)).files.map (fun e => e.1)).Nodup := by
      rw [e2, staticAnalysisCtx_keys]
      exact (extractFiles_entries a2).1
    obtain ⟨hA, hB, hC⟩ := materialize_det repoLabel (files.map (fun f => f.rel)) dirs
      (collectUnresolvedWarnings (enrichRelationshipsWithLLM
        (staticAnalysisCtx files tsPaths a1) none))
      (collectUnresolvedWarnings (enrichRelationshipsWithLLM
        (staticAnalysisCtx files tsPaths a2) none))
      hmem hnd1 hnd2
    rw [hA, hB, hC]

/-- C9 witness: the two completion orders of the fixture agree on file
nodes and counts even though their edge sequences differ. -/
theorem c9_determinism_amended_witness :
    ([c9A, c9B].Perm [c9B, c9A])
    ∧ ((analyzeRepositoryGraph "repo" [c9A, c9B] [] [] none [c9A, c9B]).map
        (fun o => (o.fileNodes, o.fileCount, o.directoryCount)))
      = ((analyzeRepositoryGraph "repo" [c9A, c9B] [] [] none [c9B, c9A]).map
        (fun o => (o.fileNodes, o.fileCount, o.directoryCount))) :=
  ⟨by decide, c9_determinism_amended "repo" [c9A, c9B] [] [] [c9A, c9B] [c9B, c9A] (by decide)⟩

end GitWeb
